import Mathlib

/-!
# Deadlock-analysis engine: a shallow embedding

This file embeds the core of the deadlock-analysis repository in Lean 4:

* `models.py` — `Process`, `ResourceType`, `SystemState` and its
  construction-time validation (`SystemState.__post_init__`);
* `detectors/matrix.py` — the Work/Finish matrix detector
  (`detect_deadlock_matrix`) and `can_system_recover`;
* `detectors/wfg.py` — the wait-for-graph detector
  (`build_wait_for_graph`, `detect_cycles_dfs`, `detect_deadlock_wfg`);
* `strategies/recovery.py` — `find_minimal_termination_set` and
  `suggest_preemption_targets`.

Python integers become `Int` (validation checks for negative entries are
meaningful), process and resource ids used as indices become `Nat`.
Fallible code (a `ValueError` raised by `SystemState.__post_init__`, an
`IndexError` from indexing an allocation row with an out-of-range pid)
is modelled with `Except String`; all remaining code is pure and total.
`zip`-based vector helpers truncate to the shorter list exactly as
Python's `zip` does.
-/

set_option maxHeartbeats 1000000

namespace Deadlock

/-- Embeds `Process` from `models.py`: a process id and a display name.
(The `pid >= 0` check of `Process.__post_init__` is irrelevant to the
claims, which construct processes with `Nat`-like ids.) -/
structure Process where
  pid : Int
  name : String
deriving DecidableEq, Repr

/-- Embeds `ResourceType` from `models.py`. -/
structure ResourceType where
  rid : Int
  name : String
  instances : Int
deriving DecidableEq, Repr

/-- Embeds the data fields of `SystemState` from `models.py`.  The
validation performed by `SystemState.__post_init__` is embedded
separately as `validateState`; `mkSystemState` is the fallible
constructor (dataclass construction running `__post_init__`). -/
structure SystemState where
  processes : List Process
  resource_types : List ResourceType
  available : List Int
  allocation : List (List Int)
  request : List (List Int)
deriving DecidableEq, Repr

/-- `SystemState.n`: number of processes. -/
def SystemState.n (s : SystemState) : Nat := s.processes.length

/-- `SystemState.m`: number of resource types. -/
def SystemState.m (s : SystemState) : Nat := s.resource_types.length

/-- `SystemState.is_single_instance`: true iff every resource type has
exactly one instance. -/
def SystemState.is_single_instance (s : SystemState) : Bool :=
  s.resource_types.all (fun rt => rt.instances == 1)

/-- Entry `Allocation[i][j]` (defaulting to `0` out of range; the claims
only use it at in-range indices of valid states). -/
def allocAt (s : SystemState) (i j : Nat) : Int :=
  (s.allocation.getD i []).getD j 0

/-- Entry `Request[i][j]`. -/
def requestAt (s : SystemState) (i j : Nat) : Int :=
  (s.request.getD i []).getD j 0

/-- `resourceTypes[j].instances`. -/
def instancesAt (s : SystemState) (j : Nat) : Int :=
  (s.resource_types.getD j ⟨0, "", 0⟩).instances

/-- `sum(allocation[i][j] for i in range(n))` from the conservation
check of `SystemState.__post_init__` (the matrix has exactly `n` rows
whenever this sum is reached). -/
def colSum (allocation : List (List Int)) (j : Nat) : Int :=
  (allocation.map (fun row => row.getD j 0)).sum

/-- Generic helper: first index of a row failing a predicate, used to
embed the `for`-loop validation checks with their index-bearing error
messages. -/
def firstBadIdx {α : Type} (p : α → Bool) (l : List α) : Option Nat :=
  l.findIdx? p

/-- Dimension checks of `SystemState.__post_init__` (lines 82–97),
in source order; returns the first error message. -/
def checkDims (s : SystemState) : Option String :=
  if s.available.length ≠ s.m then
    some ("Available vector must have " ++ toString s.m ++ " elements, got "
      ++ toString s.available.length)
  else if s.allocation.length ≠ s.n then
    some ("Allocation matrix must have " ++ toString s.n ++ " rows, got "
      ++ toString s.allocation.length)
  else if s.request.length ≠ s.n then
    some ("Request matrix must have " ++ toString s.n ++ " rows, got "
      ++ toString s.request.length)
  else match firstBadIdx (fun row => row.length != s.m) s.allocation with
  | some i => some ("Allocation[" ++ toString i ++ "] must have " ++ toString s.m ++ " columns")
  | none =>
    match firstBadIdx (fun row => row.length != s.m) s.request with
    | some i => some ("Request[" ++ toString i ++ "] must have " ++ toString s.m ++ " columns")
    | none => none

/-- Non-negativity checks of `SystemState.__post_init__` (lines 99–109).
The Python loops interleave the `allocation` and `request` checks per
index pair; we check the three containers in sequence — the set of
accepted states is identical, only the error message of a doubly-invalid
state can differ. -/
def checkNonneg (s : SystemState) : Option String :=
  match firstBadIdx (fun v => v < 0) s.available with
  | some i => some ("Available[" ++ toString i ++ "] must be non-negative")
  | none =>
    match firstBadIdx (fun row => row.any (fun v => v < 0)) s.allocation with
    | some i => some ("Allocation[" ++ toString i ++ "] must be non-negative")
    | none =>
      match firstBadIdx (fun row => row.any (fun v => v < 0)) s.request with
      | some i => some ("Request[" ++ toString i ++ "] must be non-negative")
      | none => none

/-- Conservation check of `SystemState.__post_init__` (lines 111–119):
for every resource type `j`, `Available[j] + Σ_i Allocation[i][j]`
must equal the declared total instance count. -/
def checkConservation (s : SystemState) : Option String :=
  match (List.range s.m).find?
      (fun j => s.available.getD j 0 + colSum s.allocation j != instancesAt s j) with
  | some j => some ("Resource R" ++ toString j ++ ": Available + Allocated != Total instances")
  | none => none

/-- Boundedness check of `SystemState.__post_init__` (lines 121–128):
no request may exceed the total instance count of its resource type. -/
def checkBound (s : SystemState) : Option String :=
  match (List.range s.n).findSome?
      (fun i => ((List.range s.m).find? (fun j => requestAt s i j > instancesAt s j)).map
        (fun j => "Request[" ++ toString i ++ "][" ++ toString j ++ "] exceeds total instances of R" ++ toString j)) with
  | some msg => some msg
  | none => none

/-- Embeds `SystemState.__post_init__`: runs the four validation stages
in source order and returns the first error, or `none` when the state is
accepted. -/
def validateState (s : SystemState) : Option String :=
  match checkDims s with
  | some e => some e
  | none =>
    match checkNonneg s with
    | some e => some e
    | none =>
      match checkConservation s with
      | some e => some e
      | none => checkBound s

/-- Dataclass construction of `SystemState` (which runs
`__post_init__`): yields the fully-built state or the first validation
error, never a partially-built object. -/
def mkSystemState (processes : List Process) (resource_types : List ResourceType)
    (available : List Int) (allocation : List (List Int)) (request : List (List Int)) :
    Except String SystemState :=
  let s : SystemState := ⟨processes, resource_types, available, allocation, request⟩
  match validateState s with
  | some e => .error e
  | none => .ok s

/-- A state accepted by the source validator. -/
def Valid (s : SystemState) : Prop := validateState s = none

/-- Invariant (1) of the spec: `available` has exactly `m` entries,
`allocation` and `request` exactly `n` rows of exactly `m` columns. -/
def DimsOk (s : SystemState) : Prop :=
  s.available.length = s.m ∧ s.allocation.length = s.n ∧ s.request.length = s.n ∧
    (∀ r ∈ s.allocation, r.length = s.m) ∧ (∀ r ∈ s.request, r.length = s.m)

/-- Invariant (2) of the spec: every entry of `available`, `allocation`
and `request` is non-negative. -/
def NonnegOk (s : SystemState) : Prop :=
  (∀ x ∈ s.available, 0 ≤ x) ∧ (∀ r ∈ s.allocation, ∀ x ∈ r, 0 ≤ x) ∧
    (∀ r ∈ s.request, ∀ x ∈ r, 0 ≤ x)

/-- Invariant (3) of the spec: resource conservation. -/
def ConservOk (s : SystemState) : Prop :=
  ∀ j < s.m, s.available.getD j 0 + colSum s.allocation j = instancesAt s j

/-- Invariant (4) of the spec: requests never exceed total instances. -/
def BoundOk (s : SystemState) : Prop :=
  ∀ i < s.n, ∀ j < s.m, requestAt s i j ≤ instancesAt s j

/-! ## Matrix detector (`detectors/matrix.py`) -/

/-- Embeds `vector_less_equal`: component-wise `req <= work`, truncating
to the shorter vector exactly as Python's `zip` does. -/
def vector_less_equal (req work : List Int) : Bool :=
  (req.zip work).all (fun p => decide (p.1 ≤ p.2))

/-- Embeds `vector_add`: component-wise sum, truncating like `zip`. -/
def vector_add (a b : List Int) : List Int :=
  (a.zip b).map (fun p => p.1 + p.2)

/-- Embeds `vector_to_string`. -/
def vector_to_string (v : List Int) : String :=
  "[" ++ String.intercalate ", " (v.map toString) ++ "]"

/-- Python's `sorted()` on a set of pids: the members in ascending
order (`List.range` is ascending and `filter` preserves order).  Also
used where the source iterates a Python set whose iteration order does
not affect the result. -/
def sortedPids (D : Finset Nat) : List Nat :=
  (List.range (D.sup id + 1)).filter (fun x => decide (x ∈ D))

/-- Embeds `MatrixDetectionResult` from `detectors/matrix.py`; the
Python `set` of deadlocked pids becomes a `Finset Nat`. -/
structure MatrixDetectionResult where
  deadlocked : Bool
  deadlocked_processes : Finset Nat
  finish : List Bool
  execution_order : List Nat
  trace : List String
deriving DecidableEq

/-- The inner scan of `detect_deadlock_matrix` (lines 139–158): the
first `i` in `0..n-1` with `finish[i] == False` and
`request[i] <= work`; `n` is always `finish.length` (the loop bound `n`
equals the length of the `finish` vector throughout the source). -/
def findEligible (request : List (List Int)) (work : List Int) (finish : List Bool) :
    Option Nat :=
  (List.range finish.length).find?
    (fun i => (!(finish.getD i true)) && vector_less_equal (request.getD i []) work)

/-- Number of unfinished processes; the termination measure of the outer
`while` loop. -/
def countFalse (finish : List Bool) : Nat :=
  (finish.filter (fun b => !b)).length

/-- Mutable state of the `while True` loop of `detect_deadlock_matrix`
(lines 122–162): the `work` and `finish` vectors, the execution order,
the 1-based iteration counter and the trace accumulated so far. -/
structure LoopSt where
  work : List Int
  finish : List Bool
  execution_order : List Nat
  iter : Nat
  trace : List String
deriving DecidableEq

/-- Trace lines appended by one successful iteration of the loop
(lines 146–155). -/
def iterationTrace (iter i : Nat) (reqRow allocRow oldWork newWork : List Int) :
    List String :=
  ["  Iteration " ++ toString iter ++ ":",
   "    Found P" ++ toString i ++ ": Request[" ++ toString i ++ "] = "
     ++ vector_to_string reqRow ++ " ≤ Work = " ++ vector_to_string oldWork,
   "    P" ++ toString i ++ " finishes and releases Allocation[" ++ toString i ++ "] = "
     ++ vector_to_string allocRow,
   "    Work = " ++ vector_to_string oldWork ++ " + " ++ vector_to_string allocRow
     ++ " = " ++ vector_to_string newWork,
   "    Finish[" ++ toString i ++ "] = True",
   ""]

/-- One successful iteration of the loop (lines 141–158): mark process
`i` finished, append it to the execution order, release its allocation
into `work`, bump the iteration counter and extend the trace. -/
def stepSt (request allocation : List (List Int)) (st : LoopSt) (i : Nat) : LoopSt :=
  let newWork := vector_add st.work (allocation.getD i [])
  { work := newWork,
    finish := st.finish.set i true,
    execution_order := st.execution_order ++ [i],
    iter := st.iter + 1,
    trace := st.trace ++ iterationTrace st.iter i (request.getD i [])
      (allocation.getD i []) st.work newWork }

/-- The `while True` loop of `detect_deadlock_matrix` (lines 136–162):
each round scans `0..n-1` for the first process that can finish; if one
is found it is `stepSt`-ed and the scan restarts from index 0,
otherwise the loop stops. -/
def detectLoop (request allocation : List (List Int)) (st : LoopSt) : LoopSt :=
  match h : findEligible request st.work st.finish with
  | none => st
  | some i => detectLoop request allocation (stepSt request allocation st i)
termination_by countFalse st.finish
decreasing_by
  have hmem := List.mem_of_find?_eq_some h
  have hp := List.find?_some h
  have hlt : i < st.finish.length := List.mem_range.mp hmem
  simp only [Bool.and_eq_true, Bool.not_eq_true'] at hp
  have key : ∀ (l : List Bool) (p : Nat), p < l.length → l.getD p true = false →
      countFalse (l.set p true) < countFalse l := by
    intro l
    induction l with
    | nil => intro p hplt hpf; simp at hplt
    | cons b t ih =>
      intro p hplt hpf
      cases p with
      | zero =>
        simp only [List.getD_cons_zero] at hpf
        subst hpf
        simp [countFalse, List.filter]
      | succ j =>
        simp only [List.getD_cons_succ] at hpf
        have hlt2 : j < t.length := Nat.lt_of_succ_lt_succ hplt
        have := ih j hlt2 hpf
        cases b <;> simp [countFalse, List.filter, List.set] at this ⊢ <;> omega
  simpa [stepSt] using key st.finish i hlt hp.1

/-- The trace prefix emitted by `detect_deadlock_matrix` before the
loop starts (lines 104–133). -/
def matrixTraceHeader (s : SystemState) : List String :=
  ["=== Matrix-Based Deadlock Detection ===",
   "System: " ++ toString s.n ++ " processes, " ++ toString s.m ++ " resource types",
   "",
   "Initial State:",
   "  Available: " ++ vector_to_string s.available,
   "",
   "  Allocation Matrix:"]
  ++ (List.range s.n).map (fun i => "    P" ++ toString i ++ ": "
      ++ vector_to_string (s.allocation.getD i []))
  ++ ["", "  Request Matrix:"]
  ++ (List.range s.n).map (fun i => "    P" ++ toString i ++ ": "
      ++ vector_to_string (s.request.getD i []))
  ++ ["",
   "Step 1: Initialize",
   "  Work = Available = " ++ vector_to_string s.available,
   "  Finish = [False, False, ..., False] (all " ++ toString s.n ++ " processes)",
   "",
   "Step 2-4: Find processes that can complete"]

/-- The trace suffix of `detect_deadlock_matrix` (lines 165–181). -/
def matrixTraceFooter (s : SystemState) (st : LoopSt) (deadlocked_pids : Finset Nat) :
    List String :=
  ["Step 5: Check for Deadlock"]
  ++ (if deadlocked_pids ≠ ∅ then
      ["  Processes that cannot finish (Finish[i] = False):"]
      ++ ((sortedPids deadlocked_pids).flatMap (fun i =>
          ["    P" ++ toString i ++ ": Request = " ++ vector_to_string (s.request.getD i [])
             ++ ", Work = " ++ vector_to_string st.work,
           "          Request[" ++ toString i ++ "] > Work (cannot be satisfied)"]))
      ++ ["",
          "Result: DEADLOCK DETECTED",
          "  Deadlocked processes: \x7b" ++ String.intercalate ", "
            ((sortedPids deadlocked_pids).map (fun i => "P" ++ toString i)) ++ "\x7d"]
    else
      ["  All processes finished successfully (Finish[i] = True for all i)",
       "",
       "Result: NO DEADLOCK"]
      ++ (if st.execution_order.isEmpty then [] else
          ["  Safe execution sequence: " ++ String.intercalate " → "
            (st.execution_order.map (fun i => "P" ++ toString i))]))

/-- The loop state entering step 2 of `detect_deadlock_matrix`:
`work = available`, all-false finish vector, empty execution order. -/
def initLoopSt (s : SystemState) : LoopSt :=
  { work := s.available,
    finish := List.replicate s.n false,
    execution_order := [],
    iter := 1,
    trace := matrixTraceHeader s }

/-- The loop state after the `while` loop of `detect_deadlock_matrix`
terminates. -/
def finalLoopSt (s : SystemState) : LoopSt :=
  detectLoop s.request s.allocation (initLoopSt s)

/-- Embeds `detect_deadlock_matrix` (lines 82–189): the Work/Finish
detection algorithm with its full result record. -/
def detect_deadlock_matrix (s : SystemState) : MatrixDetectionResult :=
  let stF := finalLoopSt s
  let deadlocked_pids := (Finset.range s.n).filter (fun i => stF.finish.getD i true = false)
  { deadlocked := decide (0 < deadlocked_pids.card),
    deadlocked_processes := deadlocked_pids,
    finish := stF.finish,
    execution_order := stF.execution_order,
    trace := stF.trace ++ matrixTraceFooter s stF deadlocked_pids }

/-! ## Recovery (`detectors/matrix.py` lines 192–246, `strategies/recovery.py`) -/

/-- `remaining_pids` of `can_system_recover` (line 218): the
non-terminated process ids, ascending. -/
def remainingPids (s : SystemState) (terminated : Finset Nat) : List Nat :=
  (List.range s.n).filter (fun i => decide (i ∉ terminated))

/-- The `new_available` vector of `can_system_recover` (lines 211–213):
`available` plus the allocation row of every terminated process. -/
def releasedAvailable (s : SystemState) (terminated : Finset Nat) : List Int :=
  (sortedPids terminated).foldl
    (fun acc pid => vector_add acc (s.allocation.getD pid [])) s.available

/-- The reduced system built by `can_system_recover` (lines 224–234):
terminated rows removed, their allocations released into `available`,
resource types unchanged. -/
def reducedState (s : SystemState) (terminated : Finset Nat) : SystemState :=
  ⟨(remainingPids s terminated).map (fun i => s.processes.getD i ⟨0, ""⟩),
   s.resource_types,
   releasedAvailable s terminated,
   (remainingPids s terminated).map (fun i => s.allocation.getD i []),
   (remainingPids s terminated).map (fun i => s.request.getD i [])⟩

/-- Embeds `can_system_recover` (matrix.py lines 192–246).  Releases the
allocation of every terminated process into `available`, removes those
processes (`reducedState`), and re-runs detection on the reduced state.
Python indexes `state.allocation[pid]`, which raises `IndexError` for an
out-of-range pid — modelled as the `.error` branch; the set of
terminated pids is folded in ascending order (CPython's set iteration
order is an implementation detail; for states with well-formed row
lengths the resulting vector does not depend on the order).  The inner
`SystemState(...)` construction may raise a validation error, modelled
by the `validateState` match. -/
def can_system_recover (s : SystemState) (terminated : Finset Nat) :
    Except String (Bool × List String) :=
  let trace0 := ["Checking recovery by terminating: \x7b" ++ String.intercalate ", "
    ((sortedPids terminated).map (fun i => "P" ++ toString i)) ++ "\x7d"]
  if ∀ p ∈ terminated, p < s.n then
    let new_available := releasedAvailable s terminated
    let trace1 := trace0 ++ ["  Released resources: " ++ vector_to_string new_available]
    let remaining := remainingPids s terminated
    if remaining.isEmpty then .ok (true, trace1 ++ ["  All processes terminated."])
    else
      match validateState (reducedState s terminated) with
      | some e => .error e
      | none =>
        let result := detect_deadlock_matrix (reducedState s terminated)
        if result.deadlocked then
          .ok (false, trace1 ++ ["  Remaining processes still deadlocked."])
        else
          .ok (true, trace1 ++ ["  Remaining processes can all finish!",
            "  Execution order: " ++ String.intercalate " → "
              (result.execution_order.map (fun t => "P" ++ toString (remaining.getD t 0)))])
  else .error "IndexError: list index out of range"

/-- Embeds `RecoverySuggestion` from `strategies/recovery.py`; the
Python sets become `Finset Nat`. -/
structure RecoverySuggestion where
  action_type : String
  description : String
  processes : Finset Nat
  resources : Option (Finset Nat)
  explanation : String
deriving DecidableEq

/-- `itertools.combinations` over a list: all sorted `k`-element
sublists, in the lexicographic order itertools produces. -/
def combinations : Nat → List Nat → List (List Nat)
  | 0, _ => [[]]
  | _ + 1, [] => []
  | k + 1, x :: xs => (combinations k xs).map (fun c => x :: c) ++ combinations (k + 1) xs

/-- The suggestion built for one working subset
(`strategies/recovery.py` lines 69–81). -/
def mkTerminationSuggestion (sub : List Nat) (tr : List String) : RecoverySuggestion :=
  let names := String.intercalate ", " (sub.map (fun p => "P" ++ toString p))
  { action_type := "terminate",
    description := "Terminate " ++ toString sub.length ++ " process(es): " ++ names,
    processes := sub.toFinset,
    resources := none,
    explanation := "Terminating " ++ names ++ " releases their allocated resources.\n"
      ++ "After termination:\n" ++ String.intercalate "\n" tr }

/-- The inner `for subset in itertools.combinations(...)` loop of
`find_minimal_termination_set`: tests every subset of the current size
and keeps the working ones, in enumeration order. -/
def collectTermSuggestions (s : SystemState) :
    List (List Nat) → Except String (List RecoverySuggestion)
  | [] => .ok []
  | sub :: rest =>
    match can_system_recover s sub.toFinset with
    | .error e => .error e
    | .ok (canRec, tr) =>
      match collectTermSuggestions s rest with
      | .error e => .error e
      | .ok tail =>
        if canRec then .ok (mkTerminationSuggestion sub tr :: tail) else .ok tail

/-- The outer `for size in range(1, len(deadlocked_pids) + 1)` loop of
`find_minimal_termination_set`: returns the suggestions of the first
size that yields any (`fuelSizes` counts the remaining sizes, so the
sizes tried are `1..|D|` exactly as in the source). -/
def fmtsAux (s : SystemState) (sortedD : List Nat) :
    Nat → Nat → Except String (List RecoverySuggestion)
  | _, 0 => .ok []
  | size, r + 1 =>
    match collectTermSuggestions s (combinations size sortedD) with
    | .error e => .error e
    | .ok sugg =>
      if sugg.isEmpty then fmtsAux s sortedD (size + 1) r else .ok sugg

/-- Embeds `find_minimal_termination_set` (recovery.py lines 41–87). -/
def find_minimal_termination_set (s : SystemState) (deadlocked_pids : Finset Nat) :
    Except String (List RecoverySuggestion) :=
  if deadlocked_pids = ∅ then .ok []
  else fmtsAux s (sortedPids deadlocked_pids) 1 deadlocked_pids.card

/-- Embeds `suggest_preemption_targets` (recovery.py lines 90–133): for
each deadlocked process in ascending id order, if it holds any
resources, emit one preemption suggestion listing them.  Python indexes
`state.allocation[pid]`, raising `IndexError` for an out-of-range pid —
modelled as the `.error` branch. -/
def suggest_preemption_targets (s : SystemState) (deadlocked_pids : Finset Nat) :
    Except String (List RecoverySuggestion) :=
  if ∀ p ∈ deadlocked_pids, p < s.n then
    .ok ((sortedPids deadlocked_pids).filterMap (fun pid =>
      let held := (List.range s.m).filterMap (fun j =>
        if 0 < allocAt s pid j then some (j, allocAt s pid j) else none)
      if held.isEmpty then none
      else
        let resource_desc := String.intercalate ", "
          (held.map (fun rc => toString rc.2 ++ "×R" ++ toString rc.1))
        some ({ action_type := "preempt",
                description := "Preempt resources from P" ++ toString pid ++ ": "
                  ++ resource_desc,
                processes := {pid},
                resources := some (held.map Prod.fst).toFinset,
                explanation := "Preempt resources from P" ++ toString pid ++ ": "
                  ++ resource_desc ++ "\n"
                  ++ "These resources can be reallocated to other waiting processes.\n"
                  ++ "Note: P" ++ toString pid
                  ++ " would need to be rolled back and restarted later."
              } : RecoverySuggestion)))
  else .error "IndexError: list index out of range"

/-! ## Wait-for-graph detector (`detectors/wfg.py`) -/

/-- Embeds `WaitForEdge`.  `resource_id` is an `Int` because
`detect_cycles_dfs` stores the placeholder `-1` on cycle edges. -/
structure WaitForEdge where
  from_pid : Nat
  to_pid : Nat
  resource_id : Int
deriving DecidableEq, Repr

/-- Embeds `CycleInfo`. -/
structure CycleInfo where
  processes : List Nat
  edges : List WaitForEdge
deriving DecidableEq, Repr

/-- Embeds `WFGDetectionResult`. -/
structure WFGDetectionResult where
  deadlocked : Bool
  deadlocked_processes : Finset Nat
  cycles : List CycleInfo
  wait_for_edges : List WaitForEdge
  trace : List String
deriving DecidableEq

/-- The adjacency sets built by `build_wait_for_graph` (wfg.py lines
99–114): node `i` waits for every `k ≠ i` holding a resource `i`
requests.  The Python `Dict[int, Set[int]]` becomes a list indexed by
process id whose entries are the (deduplicated) neighbor sets listed in
ascending id order — the deterministic order the spec requires of
adjacency iteration. -/
def adjacencyOf (s : SystemState) : List (List Nat) :=
  (List.range s.n).map (fun i =>
    (List.range s.n).filter (fun k =>
      k != i && (List.range s.m).any (fun j =>
        decide (0 < requestAt s i j) && decide (0 < allocAt s k j))))

/-- The edge list built by `build_wait_for_graph`, in exactly the
source's `for i / for j / for k` append order (one edge per shared
resource, duplicates across resources preserved). -/
def build_wait_for_graph_edges (s : SystemState) : List WaitForEdge :=
  ((List.range s.n).map (fun i =>
    ((List.range s.m).map (fun j =>
      if 0 < requestAt s i j then
        ((List.range s.n).filter (fun k => k != i && decide (0 < allocAt s k j))).map
          (fun k => WaitForEdge.mk i k (j : Int))
      else [])).flatten)).flatten

/-- Mutable state of `detect_cycles_dfs`: the color array
(0 = WHITE, 1 = GRAY, 2 = BLACK) and the cycles found so far.  (The
`parent` array of the source is written but never read and is omitted.) -/
structure DfsState where
  color : List Nat
  cycles : List CycleInfo
deriving DecidableEq

/-- Cycle extraction on finding a GRAY neighbor (wfg.py lines 141–158):
the cycle is the suffix of the current path from the first occurrence of
the neighbor; its edges are the consecutive pairs of that suffix closed
back at the neighbor, each attributed the placeholder resource `-1`
(the source comment says "take first match" but the code stores `-1`). -/
def recordCycle (nb : Nat) (path : List Nat) (st : DfsState) : DfsState :=
  let idx := path.indexOf nb
  let suffix := path.drop idx
  let cycleNodes := suffix ++ [nb]
  let cycleEdges := (cycleNodes.zip cycleNodes.tail).map
    (fun p => WaitForEdge.mk p.1 p.2 (-1))
  { st with cycles := st.cycles ++ [{ processes := suffix, edges := cycleEdges }] }

mutual

/-- The recursive `dfs` helper of `detect_cycles_dfs` (wfg.py lines
135–164): color the node GRAY, push it on the path, visit its
neighbors, then color it BLACK and pop.  `fuel` bounds the recursion
depth; every nested call targets a WHITE node and immediately GRAYs it,
so the nesting depth never exceeds the number of processes and the
`n + 1` fuel given by `detect_cycles_dfs` is never exhausted. -/
def dfsVisit (adj : List (List Nat)) (fuel : Nat) (node : Nat) (path : List Nat)
    (st : DfsState) : DfsState :=
  match fuel with
  | 0 => st
  | fuel + 1 =>
    let st1 : DfsState := { st with color := st.color.set node 1 }
    let st2 := dfsNeighbors adj fuel node (path ++ [node]) (adj.getD node []) st1
    { st2 with color := st2.color.set node 2 }

/-- The `for neighbor in adjacency[node]` loop inside `dfs`: a GRAY
neighbor records a cycle, a WHITE neighbor is visited recursively, a
BLACK neighbor is skipped. -/
def dfsNeighbors (adj : List (List Nat)) (fuel : Nat) (node : Nat) (path : List Nat)
    (neighbors : List Nat) (st : DfsState) : DfsState :=
  match neighbors with
  | [] => st
  | nb :: rest =>
    let c := st.color.getD nb 2
    let st2 := if c = 1 then recordCycle nb path st
      else if c = 0 then dfsVisit adj fuel nb path st
      else st
    dfsNeighbors adj fuel node path rest st2

end

/-- Embeds `detect_cycles_dfs` (wfg.py lines 117–171): run the DFS from
every still-WHITE node in ascending id order and collect all cycles. -/
def detect_cycles_dfs (adjacency : List (List Nat)) (n : Nat) : List CycleInfo :=
  ((List.range n).foldl
    (fun st i => if st.color.getD i 2 = 0 then dfsVisit adjacency (n + 1) i [] st else st)
    { color := List.replicate n 0, cycles := [] }).cycles

/-- Embeds `detect_deadlock_wfg` (wfg.py lines 174–258). -/
def detect_deadlock_wfg (s : SystemState) : WFGDetectionResult :=
  let trace0 := ["=== Wait-For Graph Deadlock Detection ===",
    "System: " ++ toString s.n ++ " processes, " ++ toString s.m ++ " resource types", ""]
  let trace1 := trace0 ++ (if s.is_single_instance then [] else
    ["WARNING: Not all resources have single instance!",
     "Wait-for graph cycle detection may give incorrect results.",
     "Use matrix-based detection for multi-instance resources.", ""])
  let trace2 := trace1 ++ ["Step 1: Building Wait-For Graph"]
  let adjacency := adjacencyOf s
  let edges := build_wait_for_graph_edges s
  if edges.isEmpty then
    { deadlocked := false, deadlocked_processes := ∅, cycles := [], wait_for_edges := [],
      trace := trace2 ++ ["  No wait-for edges found (no process is waiting).", "",
        "Result: NO DEADLOCK"] }
  else
    let trace3 := trace2 ++ ["  Wait-for edges:"]
      ++ edges.map (fun e => "    P" ++ toString e.from_pid ++ " → P" ++ toString e.to_pid
          ++ " (R" ++ toString e.resource_id ++ ")")
      ++ [""]
    let trace4 := trace3 ++ ["Step 2: Detecting Cycles using DFS"]
    let cycles := detect_cycles_dfs adjacency s.n
    if cycles.isEmpty then
      { deadlocked := false, deadlocked_processes := ∅, cycles := [], wait_for_edges := edges,
        trace := trace4 ++ ["  No cycles found in wait-for graph.", "",
          "Result: NO DEADLOCK"] }
    else
      let deadlocked_pids := cycles.foldl (fun acc c => acc ∪ c.processes.toFinset) ∅
      let cycleLines := cycles.map (fun c => "  Cycle: " ++ String.intercalate " → "
        (c.processes.map (fun p => "P" ++ toString p))
        ++ (match c.processes.head? with
            | some p0 => " → P" ++ toString p0
            | none => ""))
      { deadlocked := true,
        deadlocked_processes := deadlocked_pids,
        cycles := cycles,
        wait_for_edges := edges,
        trace := trace4 ++ cycleLines ++ ["", "Step 3: Deadlocked Processes",
          "  Processes in cycles: \x7b" ++ String.intercalate ", "
            ((sortedPids deadlocked_pids).map (fun p => "P" ++ toString p)) ++ "\x7d",
          "", "Result: DEADLOCK DETECTED"] }

def scenA : SystemState :=
  ⟨[⟨0, "P0"⟩, ⟨1, "P1"⟩, ⟨2, "P2"⟩],
   [⟨0, "R0", 1⟩, ⟨1, "R1", 1⟩, ⟨2, "R2", 1⟩],
   [0, 0, 0],
   [[1, 0, 0], [0, 1, 0], [0, 0, 1]],
   [[0, 1, 0], [0, 0, 1], [1, 0, 0]]⟩

deriving instance DecidableEq for Except

def selfReq : SystemState :=
  ⟨[⟨0, "P0"⟩], [⟨0, "R0", 1⟩], [0], [[1]], [[1]]⟩

def cyc2 : SystemState :=
  ⟨[⟨0, "P0"⟩, ⟨1, "P1"⟩], [⟨0, "R0", 1⟩, ⟨1, "R1", 1⟩], [0, 0],
   [[1, 0], [0, 1]], [[0, 1], [1, 0]]⟩

/-! ## Matrix-detector reasoning -/

/-- `order` is a completion sequence that is feasible from work vector
`w`: each process in turn has its request satisfied by the work
accumulated so far, releasing its allocation. -/
def Feasible (request allocation : List (List Int)) : List Int → List Nat → Prop
  | _, [] => True
  | w, p :: rest => vector_less_equal (request.getD p []) w = true ∧
      Feasible request allocation (vector_add w (allocation.getD p [])) rest

/-- Work vector after releasing the allocations of `order` into `w`. -/
def applyAll (allocation : List (List Int)) (w : List Int) (order : List Nat) : List Int :=
  order.foldl (fun acc p => vector_add acc (allocation.getD p [])) w

/-- The loop invariant of `detectLoop`, relative to the initial work
vector `w0` and process count `n`: the finish vector keeps length `n`,
the execution order is duplicate-free, marks exactly the finished
processes, determines the current work vector, and is feasible from
`w0`. -/
structure LoopInv (request allocation : List (List Int)) (w0 : List Int) (n : Nat)
    (st : LoopSt) : Prop where
  finlen : st.finish.length = n
  nodup : st.execution_order.Nodup
  mem_lt : ∀ p ∈ st.execution_order, p < n
  finish_iff : ∀ p, p < n → (st.finish.getD p true = true ↔ p ∈ st.execution_order)
  work_eq : st.work = applyAll allocation w0 st.execution_order
  feas : Feasible request allocation w0 st.execution_order

/-! ## Minimal-termination-set search -/

/-- The boolean verdict of `can_system_recover` (false also for the
error case, which never occurs on valid inputs). -/
def recoversB (s : SystemState) (T : Finset Nat) : Bool :=
  match can_system_recover s T with
  | .ok r => r.1
  | .error _ => false

/-- Scenario C of the spec: two processes, one resource type with three
instances, each holding one and requesting two more. -/
def scenC : SystemState :=
  ⟨[⟨0, "P0"⟩, ⟨1, "P1"⟩], [⟨0, "R0", 3⟩], [1], [[1], [1]], [[2], [2]]⟩

/-- The degenerate empty system: zero processes, zero resource types,
all containers empty. -/
def emptyState : SystemState := ⟨[], [], [], [], []⟩

/-! ## Wait-for-graph reasoning -/

/-- Edge relation of the wait-for graph given as adjacency lists. -/
def edgeRel (adj : List (List Nat)) (a b : Nat) : Prop := b ∈ adj.getD a []

/-- A genuine cycle: a non-empty chain of graph edges whose last node
has an edge back to its first node. -/
def RealCycle (adj : List (List Nat)) (c : List Nat) : Prop :=
  c ≠ [] ∧ List.Chain' (edgeRel adj) c ∧ edgeRel adj (c.getLastD 0) (c.getD 0 0)

/-- Every recorded cycle is genuine. -/
def CyclesOk (adj : List (List Nat)) (st : DfsState) : Prop :=
  ∀ c ∈ st.cycles, RealCycle adj c.processes

/-- Every GRAY node lies on the current path. -/
def GraysSub (st : DfsState) (path : List Nat) : Prop :=
  ∀ g, st.color.getD g 2 = 1 → g ∈ path

/-- The per-call guarantees of `dfsVisit` at a given fuel. -/
def VisitOk (adj : List (List Nat)) (n fuel : Nat) : Prop :=
  ∀ node path st, st.color.length = n → node < n →
    CyclesOk adj st → GraysSub st path →
    List.Chain' (edgeRel adj) (path ++ [node]) →
    ((dfsVisit adj fuel node path st).color.length = n ∧
     CyclesOk adj (dfsVisit adj fuel node path st) ∧
     (∀ g, (dfsVisit adj fuel node path st).color.getD g 2 = 1 →
       st.color.getD g 2 = 1))

/-! ## Theorems -/

theorem matchOpt_eq_none {x : Option Nat} {f : Nat → String} {y : Option String} :
    (match x with | some i => some (f i) | none => y) = none ↔ x = none ∧ y = none := by
  cases x <;> simp

theorem checkDims_eq_none_iff (s : SystemState) : checkDims s = none ↔ DimsOk s := by
  constructor
  · intro h
    unfold checkDims firstBadIdx at h
    by_cases h1 : s.available.length = s.m
    · by_cases h2 : s.allocation.length = s.n
      · by_cases h3 : s.request.length = s.n
        · rw [if_neg (by simp [h1]), if_neg (by simp [h2]), if_neg (by simp [h3]),
            matchOpt_eq_none] at h
          obtain ⟨ha, h⟩ := h
          rw [matchOpt_eq_none] at h
          obtain ⟨hrq, -⟩ := h
          refine ⟨h1, h2, h3, ?_, ?_⟩
          · intro r hrm
            have := List.findIdx?_eq_none_iff.mp ha r hrm
            simpa using this
          · intro r hrm
            have := List.findIdx?_eq_none_iff.mp hrq r hrm
            simpa using this
        · rw [if_neg (by simp [h1]), if_neg (by simp [h2]), if_pos (by simp [h3])] at h
          exact absurd h (by simp)
      · rw [if_neg (by simp [h1]), if_pos (by simp [h2])] at h
        exact absurd h (by simp)
    · rw [if_pos (by simp [h1])] at h
      exact absurd h (by simp)
  · intro ⟨h1, h2, h3, ha, hrq⟩
    unfold checkDims firstBadIdx
    rw [if_neg (by simp [h1]), if_neg (by simp [h2]), if_neg (by simp [h3])]
    have ha2 : s.allocation.findIdx? (fun row => row.length != s.m) = none :=
      List.findIdx?_eq_none_iff.mpr (fun r hrm => by simp [ha r hrm])
    have hr2 : s.request.findIdx? (fun row => row.length != s.m) = none :=
      List.findIdx?_eq_none_iff.mpr (fun r hrm => by simp [hrq r hrm])
    rw [matchOpt_eq_none, matchOpt_eq_none]
    exact ⟨ha2, hr2, rfl⟩

theorem checkNonneg_eq_none_iff (s : SystemState) : checkNonneg s = none ↔ NonnegOk s := by
  unfold checkNonneg NonnegOk firstBadIdx
  rw [matchOpt_eq_none, matchOpt_eq_none, matchOpt_eq_none]
  constructor
  · intro h
    obtain ⟨hav, hal, hrq, -⟩ := h
    refine ⟨?_, ?_, ?_⟩
    · intro x hx
      have := List.findIdx?_eq_none_iff.mp hav x hx
      simpa using this
    · intro r hr x hx
      have h2 := List.findIdx?_eq_none_iff.mp hal r hr
      rw [List.any_eq_false] at h2
      have := h2 x hx
      simpa using this
    · intro r hr x hx
      have h2 := List.findIdx?_eq_none_iff.mp hrq r hr
      rw [List.any_eq_false] at h2
      have := h2 x hx
      simpa using this
  · intro ⟨hav, hal, hrq⟩
    refine ⟨?_, ?_, ?_, rfl⟩
    · exact List.findIdx?_eq_none_iff.mpr (fun x hx => by simp [hav x hx])
    · refine List.findIdx?_eq_none_iff.mpr (fun r hr => ?_)
      rw [List.any_eq_false]
      intro x hx
      simp [hal r hr x hx]
    · refine List.findIdx?_eq_none_iff.mpr (fun r hr => ?_)
      rw [List.any_eq_false]
      intro x hx
      simp [hrq r hr x hx]

theorem checkConservation_eq_none_iff (s : SystemState) :
    checkConservation s = none ↔ ConservOk s := by
  unfold checkConservation ConservOk
  rw [matchOpt_eq_none]
  simp only [and_true, List.find?_eq_none, List.mem_range, bne_iff_ne, ne_eq, not_not]

theorem checkBound_eq_none_iff (s : SystemState) : checkBound s = none ↔ BoundOk s := by
  unfold checkBound BoundOk
  constructor
  · intro h i hi j hj
    have hmatch : (List.range s.n).findSome?
        (fun i => ((List.range s.m).find? (fun j => requestAt s i j > instancesAt s j)).map
          (fun j => "Request[" ++ toString i ++ "][" ++ toString j ++
            "] exceeds total instances of R" ++ toString j)) = none := by
      revert h
      cases hx : (List.range s.n).findSome?
          (fun i => ((List.range s.m).find? (fun j => requestAt s i j > instancesAt s j)).map
            (fun j => "Request[" ++ toString i ++ "][" ++ toString j ++
              "] exceeds total instances of R" ++ toString j)) with
      | some msg => intro hcontr; exact absurd hcontr (by simp)
      | none => intro _; rfl
    have hnone := List.findSome?_eq_none_iff.mp hmatch i (List.mem_range.mpr hi)
    cases hf : (List.range s.m).find? (fun j => requestAt s i j > instancesAt s j) with
    | none =>
      have := List.find?_eq_none.mp hf j (List.mem_range.mpr hj)
      simpa using this
    | some k => rw [hf] at hnone; exact absurd hnone (by simp)
  · intro hb
    have : (List.range s.n).findSome?
        (fun i => ((List.range s.m).find? (fun j => requestAt s i j > instancesAt s j)).map
          (fun j => "Request[" ++ toString i ++ "][" ++ toString j ++
            "] exceeds total instances of R" ++ toString j)) = none := by
      apply List.findSome?_eq_none_iff.mpr
      intro i hi
      have : (List.range s.m).find? (fun j => requestAt s i j > instancesAt s j) = none := by
        apply List.find?_eq_none.mpr
        intro j hj
        simpa using not_lt.mpr (hb i (List.mem_range.mp hi) j (List.mem_range.mp hj))
      simp [this]
    rw [this]

/-- The validator accepts a state exactly when the four spec invariants
hold. -/
theorem valid_iff (s : SystemState) :
    Valid s ↔ DimsOk s ∧ NonnegOk s ∧ ConservOk s ∧ BoundOk s := by
  unfold Valid validateState
  constructor
  · intro h
    cases h1 : checkDims s with
    | some e => rw [h1] at h; exact Option.noConfusion h
    | none =>
      cases h2 : checkNonneg s with
      | some e => rw [h1, h2] at h; exact Option.noConfusion h
      | none =>
        cases h3 : checkConservation s with
        | some e => rw [h1, h2, h3] at h; exact Option.noConfusion h
        | none =>
          rw [h1, h2, h3] at h
          exact ⟨(checkDims_eq_none_iff s).mp h1, (checkNonneg_eq_none_iff s).mp h2,
            (checkConservation_eq_none_iff s).mp h3, (checkBound_eq_none_iff s).mp h⟩
  · intro ⟨hd, hn, hc, hb⟩
    rw [(checkDims_eq_none_iff s).mpr hd, (checkNonneg_eq_none_iff s).mpr hn,
      (checkConservation_eq_none_iff s).mpr hc, (checkBound_eq_none_iff s).mpr hb]

theorem findEligible_some {request : List (List Int)} {work : List Int} {finish : List Bool}
    {i : Nat} (h : findEligible request work finish = some i) :
    i < finish.length ∧ finish.getD i true = false ∧
      vector_less_equal (request.getD i []) work = true := by
  have hmem := List.mem_of_find?_eq_some h
  have hp := List.find?_some h
  have hlt : i < finish.length := List.mem_range.mp hmem
  simp only [Bool.and_eq_true, Bool.not_eq_true'] at hp
  exact ⟨hlt, hp.1, hp.2⟩

theorem find?_range_min {p : Nat → Bool} :
    ∀ {n i : Nat}, (List.range n).find? p = some i → ∀ k < i, p k = false := by
  intro n
  induction n with
  | zero => intro i h k hk; simp at h
  | succ n ih =>
    intro i h k hk
    rw [List.range_succ, List.find?_append] at h
    cases hfind : (List.range n).find? p with
    | some j =>
      rw [hfind] at h
      simp only [Option.or_some] at h
      obtain rfl : j = i := by injection h
      exact ih hfind k hk
    | none =>
      rw [hfind] at h
      simp only [Option.none_or] at h
      have hi : i = n := by
        cases hp : p n with
        | true => simp [List.find?, hp] at h; omega
        | false => simp [List.find?, hp] at h
      subst hi
      have := List.find?_eq_none.mp hfind k (List.mem_range.mpr hk)
      simpa using this

/-- The first scan index is least among all eligible indices. -/
theorem findEligible_min {request : List (List Int)} {work : List Int} {finish : List Bool}
    {i : Nat} (h : findEligible request work finish = some i) :
    ∀ k < i, ¬(finish.getD k true = false ∧
      vector_less_equal (request.getD k []) work = true) := by
  intro k hk hcond
  have := find?_range_min h k hk
  simp only [Bool.and_eq_false_iff, Bool.not_eq_false'] at this
  rcases this with h1 | h2
  · rw [hcond.1] at h1; exact Bool.noConfusion h1
  · rw [hcond.2] at h2; exact Bool.noConfusion h2

theorem countFalse_set_lt {l : List Bool} {i : Nat} (hlt : i < l.length)
    (hfalse : l.getD i true = false) :
    countFalse (l.set i true) < countFalse l := by
  induction l generalizing i with
  | nil => simp at hlt
  | cons b t ih =>
    cases i with
    | zero =>
      simp only [List.getD_cons_zero] at hfalse
      subst hfalse
      simp [countFalse, List.filter]
    | succ j =>
      simp only [List.getD_cons_succ] at hfalse
      have hlt2 : j < t.length := Nat.lt_of_succ_lt_succ hlt
      have := ih hlt2 hfalse
      cases b <;> simp [countFalse, List.filter, List.set] at this ⊢ <;> omega

theorem vector_add_length (a b : List Int) :
    (vector_add a b).length = min a.length b.length := by
  simp [vector_add]

theorem vector_add_swap : ∀ (a b c : List Int),
    vector_add (vector_add a b) c = vector_add (vector_add a c) b
  | [], _, _ => rfl
  | _ :: _, [], c => by cases c <;> rfl
  | _ :: _, _ :: _, [] => rfl
  | x :: xs, y :: ys, z :: zs => by
    have h := vector_add_swap xs ys zs
    simp only [vector_add, List.zip_cons_cons, List.map_cons] at h ⊢
    exact List.cons_eq_cons.mpr ⟨by ring, h⟩

theorem vle_mono {r w w' : List Int} (hle : List.Forall₂ (· ≤ ·) w w')
    (h : vector_less_equal r w = true) : vector_less_equal r w' = true := by
  induction hle generalizing r with
  | nil => cases r <;> simp [vector_less_equal]
  | cons hxy _ ih =>
    cases r with
    | nil => simp [vector_less_equal]
    | cons a as =>
      simp only [vector_less_equal, List.zip_cons_cons, List.all_cons,
        Bool.and_eq_true, decide_eq_true_eq] at h ⊢
      exact ⟨le_trans h.1 hxy, ih h.2⟩

theorem forall2_le_vector_add {w w' row : List Int} (h : List.Forall₂ (· ≤ ·) w w') :
    List.Forall₂ (· ≤ ·) (vector_add w row) (vector_add w' row) := by
  induction h generalizing row with
  | nil => simp [vector_add]
  | cons hxy _ ih =>
    cases row with
    | nil => simp [vector_add]
    | cons z zs =>
      simp only [vector_add, List.zip_cons_cons, List.map_cons]
      exact List.Forall₂.cons (by exact add_le_add_right hxy z) ih

theorem le_vector_add_self {w row : List Int} (hlen : w.length ≤ row.length)
    (hnn : ∀ x ∈ row, 0 ≤ x) : List.Forall₂ (· ≤ ·) w (vector_add w row) := by
  induction w generalizing row with
  | nil => simp [vector_add]
  | cons x xs ih =>
    cases row with
    | nil => simp at hlen
    | cons y ys =>
      simp only [vector_add, List.zip_cons_cons, List.map_cons]
      refine List.Forall₂.cons ?_ ?_
      · have : (0 : Int) ≤ y := hnn y (List.mem_cons_self _ _)
        omega
      · have := @ih ys (by simpa using hlen)
          (fun x hx => hnn x (List.mem_cons_of_mem _ hx))
        simpa [vector_add] using this

theorem feasible_mono {request allocation : List (List Int)} :
    ∀ {σ : List Nat} {w w' : List Int}, List.Forall₂ (· ≤ ·) w w' →
      Feasible request allocation w σ → Feasible request allocation w' σ := by
  intro σ
  induction σ with
  | nil => intro w w' _ _; trivial
  | cons p rest ih =>
    intro w w' hle hf
    exact ⟨vle_mono hle hf.1, ih (forall2_le_vector_add hle) hf.2⟩

theorem applyAll_append_single (allocation : List (List Int)) (w : List Int)
    (order : List Nat) (i : Nat) :
    applyAll allocation w (order ++ [i]) =
      vector_add (applyAll allocation w order) (allocation.getD i []) := by
  simp [applyAll]

theorem feasible_append_single {request allocation : List (List Int)} :
    ∀ {order : List Nat} {w0 : List Int} {i : Nat},
      Feasible request allocation w0 order →
      vector_less_equal (request.getD i []) (applyAll allocation w0 order) = true →
      Feasible request allocation w0 (order ++ [i]) := by
  intro order
  induction order with
  | nil => intro w0 i _ hle; exact ⟨hle, trivial⟩
  | cons p rest ih =>
    intro w0 i hf hle
    exact ⟨hf.1, ih hf.2 hle⟩

theorem getD_set_self {α : Type} {l : List α} {i : Nat} (h : i < l.length) (a d : α) :
    (l.set i a).getD i d = a := by
  induction l generalizing i with
  | nil => simp at h
  | cons x xs ih =>
    cases i with
    | zero => rfl
    | succ j => exact ih (Nat.lt_of_succ_lt_succ h)

theorem getD_set_ne {α : Type} {l : List α} {i p : Nat} (hne : p ≠ i) (a d : α) :
    (l.set i a).getD p d = l.getD p d := by
  induction l generalizing i p with
  | nil => simp
  | cons x xs ih =>
    cases i with
    | zero =>
      cases p with
      | zero => exact absurd rfl hne
      | succ q => rfl
    | succ j =>
      cases p with
      | zero => rfl
      | succ q => exact ih (fun hc => hne (by rw [hc]))

theorem stepSt_inv {request allocation : List (List Int)} {w0 : List Int} {n : Nat}
    {st : LoopSt} {i : Nat} (inv : LoopInv request allocation w0 n st)
    (h : findEligible request st.work st.finish = some i) :
    LoopInv request allocation w0 n (stepSt request allocation st i) := by
  obtain ⟨hlt, hfin, hle⟩ := findEligible_some h
  have hiltn : i < n := inv.finlen ▸ hlt
  have hnotmem : i ∉ st.execution_order := by
    intro hm
    have := (inv.finish_iff i hiltn).mpr hm
    rw [this] at hfin
    exact Bool.noConfusion hfin
  refine ⟨?_, ?_, ?_, ?_, ?_, ?_⟩
  · simp [stepSt, inv.finlen]
  · simp [stepSt, List.nodup_append, inv.nodup, hnotmem]
  · intro p hp
    simp only [stepSt, List.mem_append, List.mem_singleton] at hp
    rcases hp with hp | rfl
    · exact inv.mem_lt p hp
    · exact hiltn
  · intro p hp
    by_cases hpi : p = i
    · subst hpi
      simp only [stepSt]
      rw [getD_set_self hlt]
      simp
    · simp only [stepSt]
      rw [getD_set_ne hpi]
      rw [inv.finish_iff p hp]
      simp [hpi]
  · simp only [stepSt]
    rw [applyAll_append_single, inv.work_eq]
  · exact feasible_append_single inv.feas (by rw [← inv.work_eq]; exact hle)

theorem detectLoop_inv {request allocation : List (List Int)} {w0 : List Int} {n : Nat} :
    ∀ st : LoopSt, LoopInv request allocation w0 n st →
      LoopInv request allocation w0 n (detectLoop request allocation st) := by
  intro st
  induction st using detectLoop.induct request allocation with
  | case1 st hnone =>
    intro inv
    rw [detectLoop, hnone]
    exact inv
  | case2 st i hsome ih =>
    intro inv
    rw [detectLoop, hsome]
    exact ih (stepSt_inv inv hsome)

/-- After the loop stops, no further process is eligible. -/
theorem detectLoop_final {request allocation : List (List Int)} :
    ∀ st : LoopSt, findEligible request (detectLoop request allocation st).work
      (detectLoop request allocation st).finish = none := by
  intro st
  induction st using detectLoop.induct request allocation with
  | case1 st hnone =>
    rw [detectLoop, hnone]
    exact hnone
  | case2 st i hsome ih =>
    rw [detectLoop, hsome]
    exact ih

theorem row_mem {al : List (List Int)} {i : Nat} (h : i < al.length) :
    al.getD i [] ∈ al := by
  rw [List.getD_eq_getElem _ _ h]
  exact List.getElem_mem h

theorem feasible_erase {request allocation : List (List Int)} {m : Nat}
    (hallen : ∀ r ∈ allocation, r.length = m)
    (halnn : ∀ r ∈ allocation, ∀ x ∈ r, 0 ≤ x) :
    ∀ (σ : List Nat) (w : List Int), w.length = m → (∀ p ∈ σ, p < allocation.length) →
      ∀ i, i ∈ σ → Feasible request allocation w σ →
        Feasible request allocation (vector_add w (allocation.getD i []))
          (σ.erase i) := by
  intro σ
  induction σ with
  | nil => intro w _ _ i hi; simp at hi
  | cons p rest ih =>
    intro w hwlen hbound i hi hf
    by_cases hip : p = i
    · subst hip
      rw [List.erase_cons_head]
      exact hf.2
    · rw [List.erase_cons_tail (by simpa using fun hc => hip hc)]
      have hirest : i ∈ rest := by
        rcases List.mem_cons.mp hi with hc | hc
        · exact absurd hc.symm hip
        · exact hc
      have hialt : i < allocation.length := hbound i hi
      have hrowlen : (allocation.getD i []).length = m :=
        hallen _ (row_mem hialt)
      have hrownn : ∀ x ∈ allocation.getD i [], 0 ≤ x :=
        halnn _ (row_mem hialt)
      refine ⟨?_, ?_⟩
      · exact vle_mono (le_vector_add_self (by rw [hwlen, hrowlen]) hrownn) hf.1
      · rw [vector_add_swap]
        have hplt : p < allocation.length := hbound p (List.mem_cons_self _ _)
        have hwlen2 : (vector_add w (allocation.getD p [])).length = m := by
          rw [vector_add_length, hwlen, hallen _ (row_mem hplt)]
          simp
        exact ih (vector_add w (allocation.getD p [])) hwlen2
          (fun q hq => hbound q (List.mem_cons_of_mem _ hq)) i hirest hf.2

theorem greedy_completes_aux {request allocation : List (List Int)} {m : Nat}
    (hallen : ∀ r ∈ allocation, r.length = m)
    (halnn : ∀ r ∈ allocation, ∀ x ∈ r, 0 ≤ x) :
    ∀ (k : Nat) (σ : List Nat) (st : LoopSt), σ.length ≤ k →
      σ.Nodup →
      (∀ p ∈ σ, p < st.finish.length) →
      (∀ p ∈ σ, p < allocation.length) →
      (∀ p, p < st.finish.length → (st.finish.getD p true = false ↔ p ∈ σ)) →
      st.work.length = m →
      Feasible request allocation st.work σ →
      ∀ p, p < (detectLoop request allocation st).finish.length →
        (detectLoop request allocation st).finish.getD p true = true := by
  intro k
  induction k with
  | zero =>
    intro σ st hk _ _ _ hiff _ _ p hp
    have hσnil : σ = [] := List.length_eq_zero.mp (Nat.le_zero.mp hk)
    subst hσnil
    have hfe : findEligible request st.work st.finish = none := by
      cases hfe : findEligible request st.work st.finish with
      | none => rfl
      | some i =>
        obtain ⟨hlt, hfin, _⟩ := findEligible_some hfe
        exact absurd ((hiff i hlt).mp hfin) (by simp)
    rw [detectLoop, hfe] at hp ⊢
    cases hb : st.finish.getD p true with
    | true => rfl
    | false => exact absurd ((hiff p hp).mp hb) (by simp)
  | succ k ih =>
    intro σ st hk hnodup hblen hbal hiff hwlen hfeas p hp
    cases hσ : σ with
    | nil =>
      subst hσ
      have hfe : findEligible request st.work st.finish = none := by
        cases hfe : findEligible request st.work st.finish with
        | none => rfl
        | some i =>
          obtain ⟨hlt, hfin, _⟩ := findEligible_some hfe
          exact absurd ((hiff i hlt).mp hfin) (by simp)
      rw [detectLoop, hfe] at hp ⊢
      cases hb : st.finish.getD p true with
      | true => rfl
      | false => exact absurd ((hiff p hp).mp hb) (by simp)
    | cons p₀ rest =>
      subst hσ
      have hp₀mem : p₀ ∈ p₀ :: rest := List.mem_cons_self _ _
      have hp₀lt : p₀ < st.finish.length := hblen p₀ hp₀mem
      have hp₀fin : st.finish.getD p₀ true = false := (hiff p₀ hp₀lt).mpr hp₀mem
      have hfe : ∃ i, findEligible request st.work st.finish = some i := by
        cases hfe : findEligible request st.work st.finish with
        | some i => exact ⟨i, rfl⟩
        | none =>
          exfalso
          have := List.find?_eq_none.mp hfe p₀ (List.mem_range.mpr hp₀lt)
          simp only [Bool.and_eq_true, Bool.not_eq_true', not_and] at this
          exact absurd hfeas.1 (this hp₀fin)
      obtain ⟨i, hfe⟩ := hfe
      obtain ⟨hilt, hifin, hile⟩ := findEligible_some hfe
      have himem : i ∈ p₀ :: rest := (hiff i hilt).mp hifin
      have hialt : i < allocation.length := hbal i himem
      rw [detectLoop, hfe] at hp ⊢
      have hrowlen : (allocation.getD i []).length = m := hallen _ (row_mem hialt)
      have hall : ∀ q, q < (detectLoop request allocation
            (stepSt request allocation st i)).finish.length →
          (detectLoop request allocation
            (stepSt request allocation st i)).finish.getD q true = true := by
        refine ih ((p₀ :: rest).erase i) (stepSt request allocation st i) ?_ ?_ ?_ ?_ ?_ ?_ ?_
        · have := List.length_erase_of_mem himem
          simp only [List.length_cons] at this hk ⊢
          omega
        · exact hnodup.erase i
        · intro q hq
          have : q ∈ p₀ :: rest := List.mem_of_mem_erase hq
          simpa [stepSt] using hblen q this
        · intro q hq
          exact hbal q (List.mem_of_mem_erase hq)
        · intro q hq
          simp only [stepSt, List.length_set] at hq
          by_cases hqi : q = i
          · subst hqi
            simp only [stepSt]
            rw [getD_set_self hilt]
            constructor
            · intro hc; exact Bool.noConfusion hc
            · intro hc; exact absurd hc (hnodup.not_mem_erase)
          · simp only [stepSt]
            rw [getD_set_ne hqi]
            rw [hiff q hq]
            exact (List.mem_erase_of_ne hqi).symm
        · simp only [stepSt]
          rw [vector_add_length, hwlen, hrowlen]
          simp
        · simp only [stepSt]
          exact feasible_erase hallen halnn _ st.work hwlen hbal i himem hfeas
      exact hall p hp

/-- Greedy completeness: if some duplicate-free feasible order covers
exactly the unfinished processes, the loop finishes every process. -/
theorem greedy_completes {request allocation : List (List Int)} {m : Nat}
    (hallen : ∀ r ∈ allocation, r.length = m)
    (halnn : ∀ r ∈ allocation, ∀ x ∈ r, 0 ≤ x)
    (σ : List Nat) (st : LoopSt)
    (hnodup : σ.Nodup)
    (hblen : ∀ p ∈ σ, p < st.finish.length)
    (hbal : ∀ p ∈ σ, p < allocation.length)
    (hiff : ∀ p, p < st.finish.length → (st.finish.getD p true = false ↔ p ∈ σ))
    (hwlen : st.work.length = m)
    (hfeas : Feasible request allocation st.work σ) :
    ∀ p, p < (detectLoop request allocation st).finish.length →
      (detectLoop request allocation st).finish.getD p true = true :=
  greedy_completes_aux hallen halnn σ.length σ st le_rfl hnodup hblen hbal hiff hwlen hfeas

theorem getD_replicate {α : Type} {n p : Nat} {a d : α} (h : p < n) :
    (List.replicate n a).getD p d = a := by
  induction n generalizing p with
  | zero => omega
  | succ k ih =>
    cases p with
    | zero => rfl
    | succ q => exact ih (by omega)

theorem initLoopSt_inv (s : SystemState) :
    LoopInv s.request s.allocation s.available s.n (initLoopSt s) := by
  refine ⟨?_, ?_, ?_, ?_, ?_, ?_⟩
  · simp [initLoopSt]
  · simp [initLoopSt]
  · simp [initLoopSt]
  · intro p hp
    simp only [initLoopSt]
    rw [getD_replicate hp]
    simp
  · rfl
  · trivial

theorem finalLoopSt_inv (s : SystemState) :
    LoopInv s.request s.allocation s.available s.n (finalLoopSt s) :=
  detectLoop_inv _ (initLoopSt_inv s)

theorem countTrue_add_countFalse (l : List Bool) :
    (l.filter (fun b => b)).length + (l.filter (fun b => !b)).length = l.length := by
  induction l with
  | nil => rfl
  | cons b t ih => cases b <;> simp [List.filter] <;> omega

theorem filterfalse_nonempty_iff {l : List Bool} {n : Nat} (hlen : l.length = n) :
    ((Finset.range n).filter (fun i => l.getD i true = false)).Nonempty ↔
      (l.filter (fun b => b)).length < n := by
  constructor
  · rintro ⟨i, hi⟩
    rw [Finset.mem_filter, Finset.mem_range] at hi
    have hil : i < l.length := by omega
    have hfalse : l[i] = false := by
      rw [← List.getD_eq_getElem _ true hil]
      exact hi.2
    have hmem : false ∈ l := hfalse ▸ List.getElem_mem hil
    have hpos : 0 < (l.filter (fun b => !b)).length :=
      List.length_pos_of_mem (List.mem_filter.mpr ⟨hmem, by simp⟩)
    have hsum := countTrue_add_countFalse l
    omega
  · intro h
    have hsum := countTrue_add_countFalse l
    have hpos : 0 < (l.filter (fun b => !b)).length := by omega
    obtain ⟨x, hx⟩ := List.exists_mem_of_length_pos hpos
    have hxmem := List.mem_filter.mp hx
    have hxfalse : x = false := by simpa using hxmem.2
    subst hxfalse
    obtain ⟨i, hil, hig⟩ := List.mem_iff_getElem.mp hxmem.1
    refine ⟨i, Finset.mem_filter.mpr ⟨Finset.mem_range.mpr (by omega), ?_⟩⟩
    rw [List.getD_eq_getElem _ true hil]
    exact hig

/-- C2: the matrix detector's `deadlocked_processes` is exactly the set
of indices whose final `finish` entry is false, and `deadlocked` holds
iff that set is non-empty, equivalently iff fewer than `n` entries of
`finish` are true.  (Proved for every state, valid ones in
particular.) -/
theorem claims_c2 (s : SystemState) :
    (detect_deadlock_matrix s).deadlocked_processes =
      (Finset.range s.n).filter
        (fun i => (detect_deadlock_matrix s).finish.getD i true = false) ∧
    ((detect_deadlock_matrix s).deadlocked = true ↔
      (detect_deadlock_matrix s).deadlocked_processes ≠ ∅) ∧
    ((detect_deadlock_matrix s).deadlocked = true ↔
      (((detect_deadlock_matrix s).finish.filter (fun b => b)).length < s.n)) := by
  have hinv := finalLoopSt_inv s
  refine ⟨rfl, ?_, ?_⟩
  · simp only [detect_deadlock_matrix, decide_eq_true_eq]
    rw [Finset.card_pos, Finset.nonempty_iff_ne_empty]
  · simp only [detect_deadlock_matrix, decide_eq_true_eq]
    rw [Finset.card_pos]
    exact filterfalse_nonempty_iff hinv.finlen

/-- C10: the execution order of the matrix detector has no duplicates,
contains exactly the ids whose final finish entry is true, and its
length plus the number of deadlocked processes is `n` — the two
partition the process ids.  (Proved for every state, valid ones in
particular.) -/
theorem claims_c10 (s : SystemState) :
    (detect_deadlock_matrix s).execution_order.Nodup ∧
    (∀ i, i ∈ (detect_deadlock_matrix s).execution_order ↔
      (i < s.n ∧ (detect_deadlock_matrix s).finish.getD i true = true)) ∧
    (detect_deadlock_matrix s).execution_order.length +
      (detect_deadlock_matrix s).deadlocked_processes.card = s.n := by
  have hinv := finalLoopSt_inv s
  have hmemiff : ∀ i, i ∈ (finalLoopSt s).execution_order ↔
      (i < s.n ∧ (finalLoopSt s).finish.getD i true = true) := by
    intro i
    constructor
    · intro h
      exact ⟨hinv.mem_lt i h, (hinv.finish_iff i (hinv.mem_lt i h)).mpr h⟩
    · intro ⟨hi, htrue⟩
      exact (hinv.finish_iff i hi).mp htrue
  refine ⟨hinv.nodup, hmemiff, ?_⟩
  have htofin : (finalLoopSt s).execution_order.toFinset =
      (Finset.range s.n).filter
        (fun i => (finalLoopSt s).finish.getD i true = true) := by
    ext i
    rw [List.mem_toFinset, hmemiff i, Finset.mem_filter, Finset.mem_range]
  have hlen : (finalLoopSt s).execution_order.length =
      ((Finset.range s.n).filter
        (fun i => (finalLoopSt s).finish.getD i true = true)).card := by
    rw [← htofin, List.toFinset_card_of_nodup hinv.nodup]
  have hsplit := Finset.filter_card_add_filter_neg_card_eq_card
    (s := Finset.range s.n)
    (p := fun i => (finalLoopSt s).finish.getD i true = true)
  have hcongr : (Finset.range s.n).filter
      (fun i => ¬((finalLoopSt s).finish.getD i true = true)) =
      (Finset.range s.n).filter
        (fun i => (finalLoopSt s).finish.getD i true = false) := by
    apply Finset.filter_congr
    intro i _
    simp
  simp only [detect_deadlock_matrix]
  rw [hlen, ← hcongr]
  rw [Finset.card_range] at hsplit
  exact hsplit

/-- C3: each round of the matrix detector selects the smallest index
`i` with `finish[i] == false` and `request[i] <= work`, marks it
finished, appends it to the execution order, adds its allocation to
`work` and restarts the scan from index 0 (the `stepSt` equation), and
stops when no index qualifies; the detector is a pure function, so two
runs on the identical state produce identical `execution_order` and
`trace`. -/
theorem claims_c3 :
    (∀ (request : List (List Int)) (work : List Int) (finish : List Bool) (i : Nat),
      findEligible request work finish = some i →
        (i < finish.length ∧ finish.getD i true = false ∧
          vector_less_equal (request.getD i []) work = true ∧
          ∀ k < i, ¬(finish.getD k true = false ∧
            vector_less_equal (request.getD k []) work = true))) ∧
    (∀ (request allocation : List (List Int)) (st : LoopSt) (i : Nat),
      findEligible request st.work st.finish = some i →
        detectLoop request allocation st =
          detectLoop request allocation (stepSt request allocation st i)) ∧
    (∀ (request allocation : List (List Int)) (st : LoopSt),
      findEligible request st.work st.finish = none →
        detectLoop request allocation st = st) ∧
    (∀ s t : SystemState, s = t →
      (detect_deadlock_matrix s).execution_order =
          (detect_deadlock_matrix t).execution_order ∧
        (detect_deadlock_matrix s).trace = (detect_deadlock_matrix t).trace) := by
  refine ⟨?_, ?_, ?_, ?_⟩
  · intro request work finish i h
    obtain ⟨h1, h2, h3⟩ := findEligible_some h
    exact ⟨h1, h2, h3, findEligible_min h⟩
  · intro request allocation st i h
    rw [detectLoop, h]
  · intro request allocation st h
    rw [detectLoop, h]
  · intro s t h
    subst h
    exact ⟨rfl, rfl⟩

/-- Witness for C3 at a concrete state: one process with a zero request
row is eligible at index 0, which is least. -/
theorem claims_c3_witness :
    0 < ([false] : List Bool).length ∧ ([false] : List Bool).getD 0 true = false ∧
      vector_less_equal (([[0]] : List (List Int)).getD 0 []) [0] = true ∧
      ∀ k < 0, ¬(([false] : List Bool).getD k true = false ∧
        vector_less_equal (([[0]] : List (List Int)).getD k []) [0] = true) :=
  claims_c3.1 [[0]] [0] [false] 0 (by decide)

/-- C6: `SystemState` construction fails (yielding no object) iff at
least one of the four invariants — dimensions, non-negativity,
conservation, request boundedness — is violated, and any constructed
state is exactly the validated input record, satisfying all four. -/
theorem claims_c6 (ps : List Process) (rts : List ResourceType) (av : List Int)
    (al rq : List (List Int)) :
    ((∃ e, mkSystemState ps rts av al rq = .error e) ↔
      ¬(DimsOk ⟨ps, rts, av, al, rq⟩ ∧ NonnegOk ⟨ps, rts, av, al, rq⟩ ∧
        ConservOk ⟨ps, rts, av, al, rq⟩ ∧ BoundOk ⟨ps, rts, av, al, rq⟩)) ∧
    (∀ st, mkSystemState ps rts av al rq = .ok st →
      (st = ⟨ps, rts, av, al, rq⟩ ∧ DimsOk st ∧ NonnegOk st ∧ ConservOk st ∧
        BoundOk st)) := by
  constructor
  · constructor
    · rintro ⟨e, he⟩ hinv
      have hv : Valid ⟨ps, rts, av, al, rq⟩ := (valid_iff _).mpr hinv
      simp only [mkSystemState] at he
      rw [Valid] at hv
      rw [hv] at he
      exact Except.noConfusion he
    · intro hninv
      cases hv : validateState ⟨ps, rts, av, al, rq⟩ with
      | none => exact absurd ((valid_iff _).mp hv) hninv
      | some e =>
        refine ⟨e, ?_⟩
        simp only [mkSystemState]
        rw [hv]
  · intro st hok
    cases hv : validateState ⟨ps, rts, av, al, rq⟩ with
    | some e =>
      simp only [mkSystemState] at hok
      rw [hv] at hok
      exact Except.noConfusion hok
    | none =>
      simp only [mkSystemState] at hok
      rw [hv] at hok
      have hst : st = ⟨ps, rts, av, al, rq⟩ := by
        cases hok
        rfl
      obtain ⟨h1, h2, h3, h4⟩ := (valid_iff _).mp hv
      subst hst
      exact ⟨rfl, h1, h2, h3, h4⟩

/-- Witness for C6: the empty system constructs successfully and the
constructed value is the input record satisfying the invariants. -/
theorem claims_c6_witness :
    ((⟨[], [], [], [], []⟩ : SystemState) = ⟨[], [], [], [], []⟩ ∧
      DimsOk ⟨[], [], [], [], []⟩ ∧ NonnegOk ⟨[], [], [], [], []⟩ ∧
      ConservOk ⟨[], [], [], [], []⟩ ∧ BoundOk ⟨[], [], [], [], []⟩) :=
  (claims_c6 [] [] [] [] []).2 ⟨[], [], [], [], []⟩ rfl

/-! ## Reduced-state validity -/

theorem getD_vector_add {a b : List Int} {j : Nat} (hja : j < a.length)
    (hjb : j < b.length) :
    (vector_add a b).getD j 0 = a.getD j 0 + b.getD j 0 := by
  induction a generalizing b j with
  | nil => simp at hja
  | cons x xs ih =>
    cases b with
    | nil => simp at hjb
    | cons y ys =>
      cases j with
      | zero => rfl
      | succ k =>
        simp only [vector_add, List.zip_cons_cons, List.map_cons, List.getD_cons_succ]
        exact ih (Nat.lt_of_succ_lt_succ hja) (Nat.lt_of_succ_lt_succ hjb)

theorem applyAll_length {al : List (List Int)} :
    ∀ {l : List Nat} {w : List Int},
      (∀ p ∈ l, (al.getD p []).length = w.length) →
      (applyAll al w l).length = w.length := by
  intro l
  induction l with
  | nil => intro w _; rfl
  | cons p rest ih =>
    intro w h
    have hrow : (al.getD p []).length = w.length := h p (List.mem_cons_self _ _)
    have hnew : (vector_add w (al.getD p [])).length = w.length := by
      rw [vector_add_length, hrow]
      simp
    have hrec := ih (w := vector_add w (al.getD p []))
      (fun q hq => by rw [hnew]; exact h q (List.mem_cons_of_mem _ hq))
    rw [applyAll, List.foldl_cons]
    rw [applyAll] at hrec
    rw [hrec, hnew]

theorem getD_applyAll {al : List (List Int)} :
    ∀ {l : List Nat} {w : List Int} {j : Nat},
      (∀ p ∈ l, (al.getD p []).length = w.length) → j < w.length →
      (applyAll al w l).getD j 0 =
        w.getD j 0 + (l.map (fun p => (al.getD p []).getD j 0)).sum := by
  intro l
  induction l with
  | nil => intro w j _ _; simp [applyAll]
  | cons p rest ih =>
    intro w j h hj
    have hrow : (al.getD p []).length = w.length := h p (List.mem_cons_self _ _)
    have hnew : (vector_add w (al.getD p [])).length = w.length := by
      rw [vector_add_length, hrow]
      simp
    have hstep := ih (w := vector_add w (al.getD p []))
      (fun q hq => by rw [hnew]; exact h q (List.mem_cons_of_mem _ hq))
      (j := j) (by rw [hnew]; exact hj)
    have hadd : (vector_add w (al.getD p [])).getD j 0 =
        w.getD j 0 + (al.getD p []).getD j 0 :=
      getD_vector_add hj (by rw [hrow]; exact hj)
    simp only [applyAll, List.foldl_cons] at hstep ⊢
    rw [hstep, hadd, List.map_cons, List.sum_cons]
    ring

theorem sum_map_filter_split (l : List Nat) (p : Nat → Bool) (f : Nat → Int) :
    ((l.filter p).map f).sum + ((l.filter (fun x => !p x)).map f).sum =
      (l.map f).sum := by
  induction l with
  | nil => simp
  | cons x xs ih =>
    cases hp : p x <;> simp [List.filter, hp] <;> omega

theorem mem_sortedPids {D : Finset Nat} {x : Nat} : x ∈ sortedPids D ↔ x ∈ D := by
  simp only [sortedPids, List.mem_filter, List.mem_range, decide_eq_true_eq]
  constructor
  · intro h; exact h.2
  · intro h
    refine ⟨?_, h⟩
    have := Finset.le_sup (f := id) h
    simpa using Nat.lt_succ_of_le this

theorem sortedPids_nodup (D : Finset Nat) : (sortedPids D).Nodup :=
  (List.nodup_range _).filter _

theorem sortedPids_perm {D : Finset Nat} {n : Nat} (hD : ∀ p ∈ D, p < n) :
    (sortedPids D).Perm ((List.range n).filter (fun i => decide (i ∈ D))) := by
  apply (List.perm_ext_iff_of_nodup (sortedPids_nodup D)
    ((List.nodup_range n).filter _)).mpr
  intro a
  rw [mem_sortedPids]
  simp only [List.mem_filter, List.mem_range, decide_eq_true_eq]
  constructor
  · intro h; exact ⟨hD a h, h⟩
  · intro h; exact h.2

theorem range_map_getD {α β : Type} (l : List α) (f : α → β) (d : α) :
    (List.range l.length).map (fun i => f (l.getD i d)) = l.map f := by
  induction l with
  | nil => rfl
  | cons x xs ih =>
    rw [List.length_cons, List.range_succ_eq_map, List.map_cons, List.map_map]
    rw [List.map_cons]
    simp only [List.getD_cons_zero, Function.comp_def, List.getD_cons_succ]
    rw [ih]

theorem getD_nonneg {r : List Int} {j : Nat} (h : ∀ x ∈ r, 0 ≤ x) :
    0 ≤ r.getD j 0 := by
  by_cases hj : j < r.length
  · rw [List.getD_eq_getElem _ _ hj]
    exact h _ (List.getElem_mem hj)
  · rw [List.getD_eq_default _ _ (by omega)]

theorem nonneg_of_getD {l : List Int} (h : ∀ j, j < l.length → 0 ≤ l.getD j 0) :
    ∀ x ∈ l, 0 ≤ x := by
  intro x hx
  obtain ⟨i, hi, hig⟩ := List.mem_iff_getElem.mp hx
  have := h i hi
  rw [List.getD_eq_getElem _ _ hi] at this
  rw [← hig]
  exact this

theorem getD_map {α β : Type} {l : List α} {f : α → β} {i : Nat} (d : α) (dβ : β)
    (h : i < l.length) : (l.map f).getD i dβ = f (l.getD i d) := by
  rw [List.getD_eq_getElem _ _ (by simpa using h), List.getElem_map,
    List.getD_eq_getElem _ _ h]

/-- Facts about a valid state, unpacked to the index-level accessors. -/
theorem valid_facts {s : SystemState} (hval : Valid s) :
    s.available.length = s.m ∧ s.allocation.length = s.n ∧ s.request.length = s.n ∧
    (∀ i, i < s.n → (s.allocation.getD i []).length = s.m) ∧
    (∀ i, i < s.n → (s.request.getD i []).length = s.m) ∧
    (∀ i j, 0 ≤ allocAt s i j) ∧ (∀ i j, 0 ≤ requestAt s i j) ∧
    (∀ x ∈ s.available, 0 ≤ x) ∧
    (∀ j, j < s.m → s.available.getD j 0 + colSum s.allocation j = instancesAt s j) ∧
    (∀ i j, i < s.n → j < s.m → requestAt s i j ≤ instancesAt s j) ∧
    (∀ r ∈ s.allocation, ∀ x ∈ r, 0 ≤ x) ∧
    (∀ r ∈ s.request, ∀ x ∈ r, 0 ≤ x) := by
  obtain ⟨⟨hav, hal, hrq, halr, hrqr⟩, ⟨hnav, hnal, hnrq⟩, hcons, hbound⟩ :=
    (valid_iff s).mp hval
  refine ⟨hav, hal, hrq, ?_, ?_, ?_, ?_, hnav, hcons, ?_, hnal, hnrq⟩
  · intro i hi
    exact halr _ (row_mem (by omega))
  · intro i hi
    exact hrqr _ (row_mem (by omega))
  · intro i j
    unfold allocAt
    by_cases hi : i < s.allocation.length
    · exact getD_nonneg (hnal _ (row_mem hi))
    · have hrow : s.allocation.getD i [] = [] := List.getD_eq_default _ _ (by omega)
      rw [hrow]
      simp
  · intro i j
    unfold requestAt
    by_cases hi : i < s.request.length
    · exact getD_nonneg (hnrq _ (row_mem hi))
    · have hrow : s.request.getD i [] = [] := List.getD_eq_default _ _ (by omega)
      rw [hrow]
      simp
  · intro i j hi hj
    exact hbound i hi j hj

theorem remainingPids_lt {s : SystemState} {D : Finset Nat} {i : Nat}
    (h : i ∈ remainingPids s D) : i < s.n := by
  have := List.mem_filter.mp h
  exact List.mem_range.mp this.1

theorem releasedAvailable_getD {s : SystemState} (hval : Valid s) {D : Finset Nat}
    (hD : ∀ p ∈ D, p < s.n) {j : Nat} (hj : j < s.m) :
    (releasedAvailable s D).getD j 0 = s.available.getD j 0 +
      ((sortedPids D).map (fun p => (s.allocation.getD p []).getD j 0)).sum := by
  obtain ⟨hav, _, _, halr, _, _, _, _, _, _, _, _⟩ := valid_facts hval
  exact getD_applyAll
    (fun p hp => by rw [hav]; exact halr p (hD p (mem_sortedPids.mp hp)))
    (by omega)

theorem releasedAvailable_length {s : SystemState} (hval : Valid s) {D : Finset Nat}
    (hD : ∀ p ∈ D, p < s.n) : (releasedAvailable s D).length = s.m := by
  obtain ⟨hav, _, _, halr, _, _, _, _, _, _, _, _⟩ := valid_facts hval
  have := @applyAll_length s.allocation (sortedPids D) s.available
    (fun p hp => by rw [hav]; exact halr p (hD p (mem_sortedPids.mp hp)))
  rw [releasedAvailable]
  rw [applyAll] at this
  omega

/-- The reduced state built inside `can_system_recover` satisfies all
four construction invariants whenever the original state does and the
terminated set stays in range: in particular conservation is preserved,
because the released allocations and the remaining rows partition the
original allocation column sums. -/
theorem reduced_valid {s : SystemState} (hval : Valid s) {D : Finset Nat}
    (hD : ∀ p ∈ D, p < s.n) : Valid (reducedState s D) := by
  obtain ⟨hav, hal, hrq, halr, hrqr, hnala, hnrqa, hnav, hcons, hbound, hnal, hnrql⟩ :=
    valid_facts hval
  apply (valid_iff _).mpr
  have hm : (reducedState s D).m = s.m := rfl
  have hn : (reducedState s D).n = (remainingPids s D).length := by
    simp [reducedState, SystemState.n]
  refine ⟨⟨?_, ?_, ?_, ?_, ?_⟩, ⟨?_, ?_, ?_⟩, ?_, ?_⟩
  · rw [hm]
    exact releasedAvailable_length hval hD
  · simp [reducedState, SystemState.n]
  · simp [reducedState, SystemState.n]
  · intro r hr
    obtain ⟨i, hi, rfl⟩ := List.mem_map.mp hr
    exact halr i (remainingPids_lt hi)
  · intro r hr
    obtain ⟨i, hi, rfl⟩ := List.mem_map.mp hr
    exact hrqr i (remainingPids_lt hi)
  · have hava : (reducedState s D).available = releasedAvailable s D := rfl
    rw [hava]
    apply nonneg_of_getD
    intro j hj
    rw [releasedAvailable_length hval hD] at hj
    rw [releasedAvailable_getD hval hD hj]
    have h1 : 0 ≤ s.available.getD j 0 := getD_nonneg hnav
    have h2 : 0 ≤ ((sortedPids D).map
        (fun p => (s.allocation.getD p []).getD j 0)).sum := by
      apply List.sum_nonneg
      intro x hx
      obtain ⟨p, _, rfl⟩ := List.mem_map.mp hx
      exact hnala p j
    omega
  · intro r hr
    obtain ⟨i, hi, rfl⟩ := List.mem_map.mp hr
    intro x hx
    by_cases hil : i < s.allocation.length
    · exact hnal _ (row_mem hil) x hx
    · rw [List.getD_eq_default _ _ (by omega)] at hx
      simp at hx
  · intro r hr
    obtain ⟨i, hi, rfl⟩ := List.mem_map.mp hr
    intro x hx
    by_cases hil : i < s.request.length
    · exact hnrql _ (row_mem hil) x hx
    · rw [List.getD_eq_default _ _ (by omega)] at hx
      simp at hx
  · intro j hj
    rw [hm] at hj
    have hsummap : colSum (reducedState s D).allocation j =
        ((remainingPids s D).map (fun i => (s.allocation.getD i []).getD j 0)).sum := by
      simp only [reducedState, colSum, List.map_map]
      rfl
    have hinst : instancesAt (reducedState s D) j = instancesAt s j := rfl
    rw [hsummap, hinst]
    have hava : (reducedState s D).available = releasedAvailable s D := rfl
    rw [hava, releasedAvailable_getD hval hD hj]
    have hperm := (sortedPids_perm hD).map
      (fun p => (s.allocation.getD p []).getD j 0)
    rw [hperm.sum_eq]
    have hrem : remainingPids s D =
        (List.range s.n).filter (fun x => !(decide (x ∈ D))) := by
      unfold remainingPids
      congr 1
      funext x
      simp [decide_not]
    have hsplit := sum_map_filter_split (List.range s.n)
      (fun i => decide (i ∈ D)) (fun i => (s.allocation.getD i []).getD j 0)
    rw [hrem]
    have hrange : ((List.range s.n).map
        (fun i => (s.allocation.getD i []).getD j 0)).sum = colSum s.allocation j := by
      have := range_map_getD s.allocation (fun row => row.getD j 0) []
      rw [hal] at this
      rw [colSum, ← this]
    have := hcons j hj
    omega
  · intro i hi j hj
    rw [hm] at hj
    rw [hn] at hi
    have hreq : requestAt (reducedState s D) i j =
        requestAt s ((remainingPids s D).getD i 0) j := by
      unfold requestAt
      congr 1
      simp only [reducedState]
      exact getD_map 0 [] hi
    rw [hreq]
    have hinst : instancesAt (reducedState s D) j = instancesAt s j := rfl
    rw [hinst]
    have hmem : (remainingPids s D).getD i 0 ∈ remainingPids s D := by
      rw [List.getD_eq_getElem _ _ hi]
      exact List.getElem_mem hi
    exact hbound _ j (remainingPids_lt hmem) hj

/-- `can_system_recover` returns a result (never an error) on a valid
state with an in-range terminated set. -/
theorem csr_ok {s : SystemState} (hval : Valid s) {D : Finset Nat}
    (hD : ∀ p ∈ D, p < s.n) : ∃ r, can_system_recover s D = .ok r := by
  have hred := reduced_valid hval hD
  unfold can_system_recover
  rw [if_pos hD]
  by_cases hrem : (remainingPids s D).isEmpty
  · rw [if_pos hrem]
    exact ⟨_, rfl⟩
  · rw [if_neg hrem]
    rw [Valid] at hred
    rw [hred]
    by_cases hdl : (detect_deadlock_matrix (reducedState s D)).deadlocked
    · rw [if_pos hdl]
      exact ⟨_, rfl⟩
    · rw [if_neg hdl]
      exact ⟨_, rfl⟩

/-- C9: for a valid state and an in-range terminated set that does not
cover all processes, the reduced state built inside
`can_system_recover` satisfies all four construction invariants, so the
internal `SystemState` construction (and with it `can_system_recover`)
never raises. -/
theorem claims_c9 (s : SystemState) (D : Finset Nat) (hval : Valid s)
    (hD : ∀ p ∈ D, p < s.n) (hnc : ∃ i, i < s.n ∧ i ∉ D) :
    Valid (reducedState s D) ∧ ∃ r, can_system_recover s D = .ok r :=
  ⟨reduced_valid hval hD, csr_ok hval hD⟩

/-- Witness for C9 at a concrete deadlocked state: terminating process 0
of the three-process cycle yields a valid reduced state and a `.ok`
recovery check. -/
theorem claims_c9_witness :
    Valid (reducedState scenA {0}) ∧ ∃ r, can_system_recover scenA {0} = .ok r :=
  claims_c9 scenA {0} rfl (by decide) ⟨1, by decide⟩

/-! ## Recovery soundness -/

theorem forall2_le_trans {a b c : List Int} (h1 : List.Forall₂ (· ≤ ·) a b)
    (h2 : List.Forall₂ (· ≤ ·) b c) : List.Forall₂ (· ≤ ·) a c := by
  induction h1 generalizing c with
  | nil =>
    cases h2
    exact List.Forall₂.nil
  | cons hxy _ ih =>
    cases h2 with
    | cons hyz htail => exact List.Forall₂.cons (le_trans hxy hyz) (ih htail)

theorem le_applyAll {al : List (List Int)} :
    ∀ {l : List Nat} {w : List Int},
      (∀ p ∈ l, (al.getD p []).length = w.length ∧ ∀ x ∈ al.getD p [], 0 ≤ x) →
      List.Forall₂ (· ≤ ·) w (applyAll al w l) := by
  intro l
  induction l with
  | nil =>
    intro w _
    exact List.forall₂_refl _
  | cons p rest ih =>
    intro w h
    have hrow := h p (List.mem_cons_self _ _)
    have hstep : List.Forall₂ (· ≤ ·) w (vector_add w (al.getD p [])) :=
      le_vector_add_self (by omega) hrow.2
    have hlen : (vector_add w (al.getD p [])).length = w.length := by
      rw [vector_add_length, hrow.1]
      simp
    have hrec := ih (w := vector_add w (al.getD p []))
      (fun q hq => by rw [hlen]; exact h q (List.mem_cons_of_mem _ hq))
    exact forall2_le_trans hstep hrec

theorem feasible_map_indexOf {s : SystemState} {remaining : List Nat} :
    ∀ {o : List Nat} {w : List Int}, (∀ p ∈ o, p ∈ remaining) →
      Feasible s.request s.allocation w o →
      Feasible (remaining.map (fun i => s.request.getD i []))
        (remaining.map (fun i => s.allocation.getD i [])) w
        (o.map (fun p => remaining.indexOf p)) := by
  intro o
  induction o with
  | nil => intro w _ _; trivial
  | cons p rest ih =>
    intro w hmem hf
    have hp : p ∈ remaining := hmem p (List.mem_cons_self _ _)
    have hidx : remaining.indexOf p < remaining.length :=
      List.indexOf_lt_length.mpr hp
    have hreq : (remaining.map (fun i => s.request.getD i [])).getD
        (remaining.indexOf p) [] = s.request.getD p [] := by
      rw [getD_map 0 [] hidx]
      congr 1
      rw [List.getD_eq_getElem _ _ hidx]
      exact List.getElem_indexOf hidx
    have hal : (remaining.map (fun i => s.allocation.getD i [])).getD
        (remaining.indexOf p) [] = s.allocation.getD p [] := by
      rw [getD_map 0 [] hidx]
      congr 1
      rw [List.getD_eq_getElem _ _ hidx]
      exact List.getElem_indexOf hidx
    refine ⟨?_, ?_⟩
    · rw [hreq]
      exact hf.1
    · rw [hal]
      exact ih (fun q hq => hmem q (List.mem_cons_of_mem _ hq)) hf.2

theorem detect_not_deadlocked_of_all_finish {s' : SystemState}
    (h : ∀ p, p < (finalLoopSt s').finish.length →
      (finalLoopSt s').finish.getD p true = true) :
    (detect_deadlock_matrix s').deadlocked = false := by
  simp only [detect_deadlock_matrix, decide_eq_false_iff_not]
  intro hpos
  obtain ⟨i, hi⟩ := Finset.card_pos.mp hpos
  rw [Finset.mem_filter, Finset.mem_range] at hi
  have hlen := (finalLoopSt_inv s').finlen
  have := h i (by omega)
  rw [this] at hi
  exact Bool.noConfusion hi.2

/-- C4: if the matrix detector reports a deadlock, terminating exactly
the deadlocked set always recovers: `can_system_recover` on the
detector's deadlocked set returns `true`, because the processes the
detector finished form a feasible completion order of the reduced
state. -/
theorem claims_c4 (s : SystemState) (hval : Valid s)
    (hdl : (detect_deadlock_matrix s).deadlocked = true) :
    ∃ tr, can_system_recover s (detect_deadlock_matrix s).deadlocked_processes =
      .ok (true, tr) := by
  obtain ⟨hav, hal, hrq, halr, hrqr, hnala, hnrqa, hnav, hcons, hbound, hnal, hnrql⟩ :=
    valid_facts hval
  have hinv := finalLoopSt_inv s
  set D := (detect_deadlock_matrix s).deadlocked_processes with hDdef
  have hDfilter : D = (Finset.range s.n).filter
      (fun i => (finalLoopSt s).finish.getD i true = false) := rfl
  have hD : ∀ p ∈ D, p < s.n := by
    intro p hp
    rw [hDfilter, Finset.mem_filter, Finset.mem_range] at hp
    exact hp.1
  unfold can_system_recover
  rw [if_pos hD]
  by_cases hrem : (remainingPids s D).isEmpty
  · rw [if_pos hrem]
    exact ⟨_, rfl⟩
  · rw [if_neg hrem]
    have hred := reduced_valid hval hD
    have hredv := hred
    rw [Valid] at hredv
    rw [hredv]
    -- the remaining pids are exactly the executed (finished) processes
    have hmemiff : ∀ p, p ∈ remainingPids s D ↔ p ∈ (finalLoopSt s).execution_order := by
      intro p
      unfold remainingPids
      rw [List.mem_filter, List.mem_range]
      simp only [decide_eq_true_eq]
      constructor
      · intro ⟨hpn, hpD⟩
        have : (finalLoopSt s).finish.getD p true = true := by
          cases hb : (finalLoopSt s).finish.getD p true with
          | true => rfl
          | false =>
            exact absurd (by
              rw [hDfilter, Finset.mem_filter, Finset.mem_range]
              exact ⟨hpn, hb⟩) hpD
        exact (hinv.finish_iff p hpn).mp this
      · intro hpo
        have hpn := hinv.mem_lt p hpo
        refine ⟨hpn, ?_⟩
        intro hpD
        rw [hDfilter, Finset.mem_filter] at hpD
        have := (hinv.finish_iff p hpn).mpr hpo
        rw [this] at hpD
        exact Bool.noConfusion hpD.2
    -- the reduced detector finishes everyone
    have hfinished : ∀ p, p < (finalLoopSt (reducedState s D)).finish.length →
        (finalLoopSt (reducedState s D)).finish.getD p true = true := by
      obtain ⟨rav, ral, rrq, ralr, rrqr, rnala, rnrqa, rnav, rcons, rbound, rnal, rnrql⟩ :=
        valid_facts hred
      have hrn : (reducedState s D).n = (remainingPids s D).length := by
        simp [reducedState, SystemState.n]
      apply greedy_completes (m := s.m)
        (σ := (finalLoopSt s).execution_order.map
          (fun p => (remainingPids s D).indexOf p))
      · intro r hr
        obtain ⟨i, hi, rfl⟩ := List.mem_map.mp hr
        exact halr i (remainingPids_lt hi)
      · intro r hr
        obtain ⟨i, hi, rfl⟩ := List.mem_map.mp hr
        intro x hx
        by_cases hil : i < s.allocation.length
        · exact hnal _ (row_mem hil) x hx
        · rw [List.getD_eq_default _ _ (by omega)] at hx
          simp at hx
      · apply List.Nodup.map_on ?_ hinv.nodup
        intro a ha b hb hidx
        have haR : a ∈ remainingPids s D := (hmemiff a).mpr ha
        have hbR : b ∈ remainingPids s D := (hmemiff b).mpr hb
        have hia := List.indexOf_lt_length.mpr haR
        have hib := List.indexOf_lt_length.mpr hbR
        have ha3 : (remainingPids s D)[List.indexOf a (remainingPids s D)]? = some a := by
          rw [List.getElem?_eq_getElem hia, List.getElem_indexOf hia]
        have hb3 : (remainingPids s D)[List.indexOf b (remainingPids s D)]? = some b := by
          rw [List.getElem?_eq_getElem hib, List.getElem_indexOf hib]
        rw [hidx, hb3] at ha3
        injection ha3
        omega
      · intro t ht
        obtain ⟨p, hp, rfl⟩ := List.mem_map.mp ht
        have hpR : p ∈ remainingPids s D := (hmemiff p).mpr hp
        have := List.indexOf_lt_length.mpr hpR
        simp only [initLoopSt, List.length_replicate]
        rw [hrn]
        exact this
      · intro t ht
        obtain ⟨p, hp, rfl⟩ := List.mem_map.mp ht
        have hpR : p ∈ remainingPids s D := (hmemiff p).mpr hp
        have hlt := List.indexOf_lt_length.mpr hpR
        simp only [reducedState, List.length_map]
        exact hlt
      · intro q hq
        simp only [initLoopSt, List.length_replicate] at hq
        simp only [initLoopSt]
        rw [getD_replicate hq]
        rw [hrn] at hq
        constructor
        · intro _
          have hqmem : (remainingPids s D).getD q 0 ∈ remainingPids s D := by
            rw [List.getD_eq_getElem _ _ hq]
            exact List.getElem_mem hq
          refine List.mem_map.mpr ⟨(remainingPids s D).getD q 0,
            (hmemiff _).mp hqmem, ?_⟩
          rw [List.getD_eq_getElem _ _ hq]
          exact List.indexOf_getElem ((List.nodup_range s.n).filter _) q hq
        · intro _
          rfl
      · simp only [initLoopSt]
        have : (reducedState s D).available = releasedAvailable s D := rfl
        rw [this]
        exact releasedAvailable_length hval hD
      · simp only [initLoopSt]
        have hfeas0 : Feasible s.request s.allocation s.available
            (finalLoopSt s).execution_order := hinv.feas
        have hle : List.Forall₂ (· ≤ ·) s.available (releasedAvailable s D) := by
          apply le_applyAll
          intro p hp
          have hpn : p < s.n := hD p (mem_sortedPids.mp hp)
          constructor
          · rw [hav]
            exact halr p hpn
          · intro x hx
            by_cases hil : p < s.allocation.length
            · exact hnal _ (row_mem hil) x hx
            · rw [List.getD_eq_default _ _ (by omega)] at hx
              simp at hx
        have hfeas1 : Feasible s.request s.allocation (releasedAvailable s D)
            (finalLoopSt s).execution_order := feasible_mono hle hfeas0
        have : (reducedState s D).available = releasedAvailable s D := rfl
        rw [this]
        exact feasible_map_indexOf (fun p hp => (hmemiff p).mpr hp) hfeas1
    have hnotdl := detect_not_deadlocked_of_all_finish hfinished
    simp only [hnotdl, Bool.false_eq_true, if_false]
    exact ⟨_, rfl⟩

theorem combinations_mem_spec :
    ∀ (l : List Nat) (k : Nat) (sub : List Nat),
      sub ∈ combinations k l → sub.length = k ∧ sub.Sublist l := by
  intro l
  induction l with
  | nil =>
    intro k sub h
    cases k with
    | zero =>
      simp only [combinations, List.mem_singleton] at h
      subst h
      exact ⟨rfl, List.Sublist.refl _⟩
    | succ k' => simp [combinations] at h
  | cons x xs ih =>
    intro k sub h
    cases k with
    | zero =>
      simp only [combinations, List.mem_singleton] at h
      subst h
      exact ⟨rfl, List.nil_sublist _⟩
    | succ k' =>
      simp only [combinations, List.mem_append, List.mem_map] at h
      rcases h with ⟨c, hc, rfl⟩ | h
      · obtain ⟨hlen, hsub⟩ := ih k' c hc
        exact ⟨by simp [hlen], List.Sublist.cons₂ x hsub⟩
      · obtain ⟨hlen, hsub⟩ := ih (k' + 1) sub h
        exact ⟨hlen, hsub.cons x⟩

theorem sublist_mem_combinations :
    ∀ {l sub : List Nat}, sub.Sublist l → sub ∈ combinations sub.length l := by
  intro l
  induction l with
  | nil =>
    intro sub h
    have : sub = [] := List.sublist_nil.mp h
    subst this
    simp [combinations]
  | cons x xs ih =>
    intro sub h
    cases h with
    | cons _ htail =>
      cases sub with
      | nil => simp [combinations]
      | cons y t =>
        simp only [List.length_cons, combinations, List.mem_append]
        exact Or.inr (ih htail)
    | cons₂ _ htail =>
      simp only [List.length_cons, combinations, List.mem_append, List.mem_map]
      exact Or.inl ⟨_, ih htail, rfl⟩

/-- Any subset of `D` appears (as a list) among the combinations of its
size over the sorted ids of `D`. -/
theorem exists_combination_of_subset {D T : Finset Nat} (hT : T ⊆ D) :
    ∃ sub, sub ∈ combinations T.card (sortedPids D) ∧ sub.toFinset = T := by
  refine ⟨(sortedPids D).filter (fun x => decide (x ∈ T)), ?_, ?_⟩
  · have hsub : ((sortedPids D).filter (fun x => decide (x ∈ T))).Sublist (sortedPids D) :=
      List.filter_sublist _
    have hnd : ((sortedPids D).filter (fun x => decide (x ∈ T))).Nodup :=
      (sortedPids_nodup D).filter _
    have htf : ((sortedPids D).filter (fun x => decide (x ∈ T))).toFinset = T := by
      ext a
      rw [List.mem_toFinset, List.mem_filter, mem_sortedPids]
      simp only [decide_eq_true_eq]
      constructor
      · intro hh; exact hh.2
      · intro hh; exact ⟨hT hh, hh⟩
    have hlen : ((sortedPids D).filter (fun x => decide (x ∈ T))).length = T.card := by
      have hcard := List.toFinset_card_of_nodup hnd
      rw [htf] at hcard
      exact hcard.symm
    rw [← hlen]
    exact sublist_mem_combinations hsub
  · ext a
    rw [List.mem_toFinset, List.mem_filter, mem_sortedPids]
    simp only [decide_eq_true_eq]
    constructor
    · intro hh; exact hh.2
    · intro hh; exact ⟨hT hh, hh⟩

theorem collect_spec {s : SystemState} (hval : Valid s) :
    ∀ (subsets : List (List Nat)), (∀ sub ∈ subsets, ∀ p ∈ sub, p < s.n) →
      ∃ L, collectTermSuggestions s subsets = .ok L ∧
        L.map (fun sg => sg.processes) =
          (subsets.filter (fun sub => recoversB s sub.toFinset)).map
            (fun sub => sub.toFinset) ∧
        (∀ sg ∈ L, sg.action_type = "terminate") ∧
        (∀ sg ∈ L, ∃ sub ∈ subsets, recoversB s sub.toFinset = true ∧
          sg.processes = sub.toFinset) := by
  intro subsets
  induction subsets with
  | nil =>
    intro _
    exact ⟨[], rfl, rfl, by simp, by simp⟩
  | cons sub rest ih =>
    intro hb
    obtain ⟨L', hL', hmap, hterm, hchar⟩ :=
      ih (fun q hq => hb q (List.mem_cons_of_mem _ hq))
    have hDsub : ∀ p ∈ sub.toFinset, p < s.n :=
      fun p hp => hb sub (List.mem_cons_self _ _) p (List.mem_toFinset.mp hp)
    obtain ⟨⟨b, tr⟩, hcr⟩ := csr_ok hval hDsub
    have hrecb : recoversB s sub.toFinset = b := by
      unfold recoversB
      rw [hcr]
    simp only [collectTermSuggestions, hcr, hL']
    cases b with
    | true =>
      refine ⟨mkTerminationSuggestion sub tr :: L', by simp, ?_, ?_, ?_⟩
      · simp only [List.map_cons, List.filter_cons, hrecb, if_true]
        rw [hmap]
        rfl
      · intro sg hsg
        rcases List.mem_cons.mp hsg with rfl | hsg
        · rfl
        · exact hterm sg hsg
      · intro sg hsg
        rcases List.mem_cons.mp hsg with rfl | hsg
        · exact ⟨sub, List.mem_cons_self _ _, hrecb, rfl⟩
        · obtain ⟨c, hc, hrc, hpc⟩ := hchar sg hsg
          exact ⟨c, List.mem_cons_of_mem _ hc, hrc, hpc⟩
    | false =>
      refine ⟨L', by simp, ?_, hterm, ?_⟩
      · simp only [List.filter_cons, hrecb, Bool.false_eq_true, if_false]
        exact hmap
      · intro sg hsg
        obtain ⟨c, hc, hrc, hpc⟩ := hchar sg hsg
        exact ⟨c, List.mem_cons_of_mem _ hc, hrc, hpc⟩

theorem fmts_spec {s : SystemState} (hval : Valid s) {D : Finset Nat}
    (hD : ∀ p ∈ D, p < s.n) :
    ∀ (r size : Nat), 1 ≤ size → size + r = D.card + 1 →
      (∀ T ⊆ D, T.Nonempty → T.card < size → recoversB s T = false) →
      ∃ L, fmtsAux s (sortedPids D) size r = .ok L ∧
        (∀ sg ∈ L, sg.action_type = "terminate" ∧ sg.processes ⊆ D ∧
          recoversB s sg.processes = true) ∧
        ((∃ k, size ≤ k ∧ k ≤ D.card ∧ (∀ sg ∈ L, sg.processes.card = k) ∧ L ≠ [] ∧
          L.map (fun sg => sg.processes) =
            ((combinations k (sortedPids D)).filter
              (fun sub => recoversB s sub.toFinset)).map (fun sub => sub.toFinset) ∧
          (∀ T ⊆ D, T.Nonempty → T.card < k → recoversB s T = false)) ∨
        (L = [] ∧ ∀ T ⊆ D, T.Nonempty → recoversB s T = false)) := by
  intro r
  induction r with
  | zero =>
    intro size hsz hsum hmin
    refine ⟨[], rfl, by simp, Or.inr ⟨rfl, ?_⟩⟩
    intro T hT hTne
    apply hmin T hT hTne
    have := Finset.card_le_card hT
    omega
  | succ r ih =>
    intro size hsz hsum hmin
    have hbounds : ∀ sub ∈ combinations size (sortedPids D), ∀ p ∈ sub, p < s.n := by
      intro sub hsub p hp
      have hsl := (combinations_mem_spec _ _ _ hsub).2
      have : p ∈ sortedPids D := hsl.subset hp
      exact hD p (mem_sortedPids.mp this)
    obtain ⟨L₀, hL₀, hmap, hterm, hchar⟩ :=
      collect_spec hval (combinations size (sortedPids D)) hbounds
    simp only [fmtsAux, hL₀]
    by_cases hempty : L₀.isEmpty
    · rw [if_pos hempty]
      have hL₀nil : L₀ = [] := List.isEmpty_iff.mp hempty
      have hminsucc : ∀ T ⊆ D, T.Nonempty → T.card < size + 1 → recoversB s T = false := by
        intro T hT hTne hTcard
        by_cases hlt : T.card < size
        · exact hmin T hT hTne hlt
        · have hTk : T.card = size := by omega
          obtain ⟨sub, hsubmem, hsubtf⟩ := exists_combination_of_subset hT
          rw [hTk] at hsubmem
          by_contra hrec
          have hrect : recoversB s T = true := by
            cases hb : recoversB s T with
            | true => rfl
            | false => exact absurd hb hrec
          have : sub.toFinset ∈ L₀.map (fun sg => sg.processes) := by
            rw [hmap]
            exact List.mem_map.mpr ⟨sub, List.mem_filter.mpr
              ⟨hsubmem, by rw [hsubtf]; exact hrect⟩, rfl⟩
          rw [hL₀nil] at this
          simp at this
      obtain ⟨L, hfa, hsg, hdisj⟩ := ih (size + 1) (by omega) (by omega) hminsucc
      refine ⟨L, hfa, hsg, ?_⟩
      rcases hdisj with ⟨k, hk1, hk2, hk3, hk4, hk5, hk6⟩ | hright
      · exact Or.inl ⟨k, by omega, hk2, hk3, hk4, hk5, hk6⟩
      · exact Or.inr hright
    · rw [if_neg hempty]
      have hL₀ne : L₀ ≠ [] := fun hc => hempty (by rw [hc]; rfl)
      refine ⟨L₀, rfl, ?_, Or.inl ⟨size, le_rfl, by omega, ?_, hL₀ne, hmap, hmin⟩⟩
      · intro sg hsg
        obtain ⟨sub, hsubmem, hrec, hproc⟩ := hchar sg hsg
        obtain ⟨hlen, hsl⟩ := combinations_mem_spec _ _ _ hsubmem
        refine ⟨hterm sg hsg, ?_, by rw [hproc]; exact hrec⟩
        rw [hproc]
        intro p hp
        have : p ∈ sub := List.mem_toFinset.mp hp
        exact mem_sortedPids.mp (hsl.subset this)
      · intro sg hsg
        obtain ⟨sub, hsubmem, hrec, hproc⟩ := hchar sg hsg
        obtain ⟨hlen, hsl⟩ := combinations_mem_spec _ _ _ hsubmem
        have hnd : sub.Nodup := hsl.nodup (sortedPids_nodup D)
        rw [hproc, List.toFinset_card_of_nodup hnd, hlen]

/-- C5: on a valid state with a non-empty in-range deadlocked set,
`find_minimal_termination_set` returns exactly the suggestions built
from all recovering subsets of the least size `k ≥ 1` that has any, in
the deterministic combination order over the sorted ids — every
returned suggestion has size `k` and recovers, every recovering size-`k`
subset is returned, and no smaller non-empty subset recovers — or the
empty list when no non-empty subset of `D` recovers at all. -/
theorem claims_c5 (s : SystemState) (hval : Valid s) (D : Finset Nat)
    (hD : ∀ p ∈ D, p < s.n) (hne : D ≠ ∅) :
    ∃ L, find_minimal_termination_set s D = .ok L ∧
      (∀ sg ∈ L, sg.action_type = "terminate" ∧ sg.processes ⊆ D ∧
        recoversB s sg.processes = true) ∧
      ((∃ k, 1 ≤ k ∧ k ≤ D.card ∧ (∀ sg ∈ L, sg.processes.card = k) ∧ L ≠ [] ∧
        L.map (fun sg => sg.processes) =
          ((combinations k (sortedPids D)).filter
            (fun sub => recoversB s sub.toFinset)).map (fun sub => sub.toFinset) ∧
        (∀ T ⊆ D, T.Nonempty → T.card < k → recoversB s T = false)) ∨
      (L = [] ∧ ∀ T ⊆ D, T.Nonempty → recoversB s T = false)) := by
  have := fmts_spec hval hD D.card 1 le_rfl (by omega)
    (fun T _ hTne hTcard => absurd hTcard (by
      have := Finset.card_pos.mpr hTne
      omega))
  unfold find_minimal_termination_set
  rw [if_neg hne]
  exact this

unseal detectLoop in
/-- Witness for C4 at Scenario C (both processes deadlocked):
terminating the detector's deadlocked set recovers. -/
theorem claims_c4_witness :
    ∃ tr, can_system_recover scenC (detect_deadlock_matrix scenC).deadlocked_processes =
      .ok (true, tr) :=
  claims_c4 scenC rfl (by decide)

unseal detectLoop in
/-- Witness for C5 at Scenario A with its deadlocked set. -/
theorem claims_c5_witness :
    ∃ L, find_minimal_termination_set scenA {0, 1, 2} = .ok L ∧
      (∀ sg ∈ L, sg.action_type = "terminate" ∧ sg.processes ⊆ ({0, 1, 2} : Finset Nat) ∧
        recoversB scenA sg.processes = true) ∧
      ((∃ k, 1 ≤ k ∧ k ≤ ({0, 1, 2} : Finset Nat).card ∧
        (∀ sg ∈ L, sg.processes.card = k) ∧ L ≠ [] ∧
        L.map (fun sg => sg.processes) =
          ((combinations k (sortedPids {0, 1, 2})).filter
            (fun sub => recoversB scenA sub.toFinset)).map (fun sub => sub.toFinset) ∧
        (∀ T ⊆ ({0, 1, 2} : Finset Nat), T.Nonempty → T.card < k →
          recoversB scenA T = false)) ∨
      (L = [] ∧ ∀ T ⊆ ({0, 1, 2} : Finset Nat), T.Nonempty →
        recoversB scenA T = false)) :=
  claims_c5 scenA rfl {0, 1, 2} (by decide) (by decide)

/-! ## Totality -/

theorem fmts_ok {s : SystemState} (hval : Valid s) {D : Finset Nat}
    (hD : ∀ p ∈ D, p < s.n) :
    ∃ l, find_minimal_termination_set s D = .ok l := by
  by_cases hne : D = ∅
  · subst hne
    exact ⟨[], rfl⟩
  · obtain ⟨L, hL, -, -⟩ := fmts_spec hval hD D.card 1 le_rfl (by omega)
      (fun T _ hTne hTcard => absurd hTcard (by
        have := Finset.card_pos.mpr hTne
        omega))
    refine ⟨L, ?_⟩
    unfold find_minimal_termination_set
    rw [if_neg hne]
    exact hL

theorem wfg_trace_ne_nil (s : SystemState) : (detect_deadlock_wfg s).trace ≠ [] := by
  unfold detect_deadlock_wfg
  by_cases h1 : (build_wait_for_graph_edges s).isEmpty
  · simp only [h1, if_true]
    simp
  · simp only [h1, Bool.false_eq_true, if_false]
    by_cases h2 : (detect_cycles_dfs (adjacencyOf s) s.n).isEmpty
    · simp only [h2, if_true]
      simp
    · simp only [h2, Bool.false_eq_true, if_false]
      simp

/-- C8: over any valid state — degenerate ones included — the two
detectors and the advisor entry points are total.  The detectors are
total Lean functions by construction and always produce a result (a
finish vector of the right length, a non-empty trace); the operations
whose Python bodies can raise (`can_system_recover` through its inner
`SystemState` construction and row indexing, and the two advisor
functions through it) return `.ok` whenever the pid set is in range. -/
theorem claims_c8 (s : SystemState) (hval : Valid s) (D : Finset Nat)
    (hD : ∀ p ∈ D, p < s.n) :
    (detect_deadlock_matrix s).finish.length = s.n ∧
    (detect_deadlock_wfg s).trace ≠ [] ∧
    (∃ r, can_system_recover s D = .ok r) ∧
    (∃ l, find_minimal_termination_set s D = .ok l) ∧
    (∃ l, suggest_preemption_targets s D = .ok l) := by
  refine ⟨(finalLoopSt_inv s).finlen, wfg_trace_ne_nil s, csr_ok hval hD,
    fmts_ok hval hD, ?_⟩
  unfold suggest_preemption_targets
  rw [if_pos hD]
  exact ⟨_, rfl⟩

/-- Witness for C8 at the degenerate empty state. -/
theorem claims_c8_witness :
    (detect_deadlock_matrix emptyState).finish.length = emptyState.n ∧
    (detect_deadlock_wfg emptyState).trace ≠ [] ∧
    (∃ r, can_system_recover emptyState ∅ = .ok r) ∧
    (∃ l, find_minimal_termination_set emptyState ∅ = .ok l) ∧
    (∃ l, suggest_preemption_targets emptyState ∅ = .ok l) :=
  claims_c8 emptyState rfl ∅ (by decide)

theorem getLast?_drop {l : List Nat} {i : Nat} (h : i < l.length) :
    (l.drop i).getLast? = l.getLast? := by
  conv_rhs => rw [← List.take_append_drop i l]
  rw [List.getLast?_append]
  have hne : l.drop i ≠ [] := by
    intro hc
    rw [List.drop_eq_nil_iff] at hc
    omega
  cases hd : (l.drop i).getLast? with
  | none => exact absurd (List.getLast?_eq_none_iff.mp hd) hne
  | some a => rfl

theorem recordCycle_ok {adj : List (List Nat)} {node nb : Nat} {path : List Nat}
    {st : DfsState} (hcy : CyclesOk adj st) (hnb : nb ∈ path)
    (hchain : List.Chain' (edgeRel adj) path)
    (hlast : path.getLast? = some node)
    (hedge : nb ∈ adj.getD node []) :
    CyclesOk adj (recordCycle nb path st) ∧
      (recordCycle nb path st).color = st.color := by
  refine ⟨?_, rfl⟩
  intro c hc
  simp only [recordCycle, List.mem_append, List.mem_singleton] at hc
  rcases hc with hc | rfl
  · exact hcy c hc
  · have hidx : path.indexOf nb < path.length := List.indexOf_lt_length.mpr hnb
    have hlen : 0 < (path.drop (path.indexOf nb)).length := by
      rw [List.length_drop]
      omega
    have hne : path.drop (path.indexOf nb) ≠ [] :=
      List.ne_nil_of_length_pos hlen
    have hhead : (path.drop (path.indexOf nb)).getD 0 0 = nb := by
      rw [List.getD_eq_getElem _ _ hlen, List.getElem_drop]
      simp only [Nat.add_zero]
      exact List.getElem_indexOf hidx
    have hlastd : (path.drop (path.indexOf nb)).getLastD 0 = node := by
      rw [List.getLastD_eq_getLast?, getLast?_drop hidx, hlast]
      rfl
    refine ⟨hne, hchain.drop _, ?_⟩
    rw [hhead, hlastd]
    exact hedge

theorem dfsNeighbors_ok_of {adj : List (List Nat)} {n : Nat}
    (hadj : ∀ a b, b ∈ adj.getD a [] → b < n) {fuel : Nat}
    (hV : VisitOk adj n fuel) :
    ∀ (neighbors : List Nat) (node : Nat) (path : List Nat) (st : DfsState),
      st.color.length = n →
      (∀ nb ∈ neighbors, nb ∈ adj.getD node []) →
      CyclesOk adj st → GraysSub st path →
      List.Chain' (edgeRel adj) path →
      path.getLast? = some node →
      ((dfsNeighbors adj fuel node path neighbors st).color.length = n ∧
       CyclesOk adj (dfsNeighbors adj fuel node path neighbors st) ∧
       (∀ g, (dfsNeighbors adj fuel node path neighbors st).color.getD g 2 = 1 →
         st.color.getD g 2 = 1)) := by
  intro neighbors
  induction neighbors with
  | nil =>
    intro node path st hlen _ hcy hgr _ _
    simp only [dfsNeighbors]
    exact ⟨hlen, hcy, fun g h => h⟩
  | cons nb rest ih =>
    intro node path st hlen hnbs hcy hgr hchain hlast
    have hedge : nb ∈ adj.getD node [] := hnbs nb (List.mem_cons_self _ _)
    simp only [dfsNeighbors]
    by_cases h1 : st.color.getD nb 2 = 1
    · rw [if_pos h1]
      obtain ⟨hcy2, hcol2⟩ := recordCycle_ok hcy (hgr nb h1) hchain hlast hedge
      have hgr2 : GraysSub (recordCycle nb path st) path := by
        intro g hg
        rw [hcol2] at hg
        exact hgr g hg
      have := ih node path (recordCycle nb path st) (by rw [hcol2]; exact hlen)
        (fun q hq => hnbs q (List.mem_cons_of_mem _ hq)) hcy2 hgr2 hchain hlast
      refine ⟨this.1, this.2.1, ?_⟩
      intro g hg
      have := this.2.2 g hg
      rw [hcol2] at this
      exact this
    · rw [if_neg h1]
      by_cases h0 : st.color.getD nb 2 = 0
      · rw [if_pos h0]
        have hnbn : nb < n := hadj node nb hedge
        have hchain2 : List.Chain' (edgeRel adj) (path ++ [nb]) := by
          rw [List.chain'_append]
          refine ⟨hchain, List.chain'_singleton _, ?_⟩
          intro x hx y hy
          rw [hlast] at hx
          simp only [Option.mem_def, Option.some_inj] at hx
          simp only [List.head?_cons, Option.mem_def, Option.some_inj] at hy
          subst hx
          subst hy
          exact hedge
        obtain ⟨hlen2, hcy2, hgr2⟩ := hV nb path st hlen hnbn hcy hgr hchain2
        have hgrsub : GraysSub (dfsVisit adj fuel nb path st) path := by
          intro g hg
          exact hgr g (hgr2 g hg)
        have := ih node path (dfsVisit adj fuel nb path st) hlen2
          (fun q hq => hnbs q (List.mem_cons_of_mem _ hq)) hcy2 hgrsub hchain hlast
        refine ⟨this.1, this.2.1, ?_⟩
        intro g hg
        exact hgr2 g (this.2.2 g hg)
      · rw [if_neg h0]
        exact ih node path st hlen
          (fun q hq => hnbs q (List.mem_cons_of_mem _ hq)) hcy hgr hchain hlast

theorem dfsVisit_ok {adj : List (List Nat)} {n : Nat}
    (hadj : ∀ a b, b ∈ adj.getD a [] → b < n) :
    ∀ fuel, VisitOk adj n fuel := by
  intro fuel
  induction fuel with
  | zero =>
    intro node path st hlen _ hcy _ _
    simp only [dfsVisit]
    exact ⟨hlen, hcy, fun g h => h⟩
  | succ fuel ih =>
    intro node path st hlen hnode hcy hgr hchain
    rw [dfsVisit]
    set st1 : DfsState := { st with color := st.color.set node 1 } with hst1
    have hlen1 : st1.color.length = n := by
      simp [hst1, hlen]
    have hgr1 : GraysSub st1 (path ++ [node]) := by
      intro g hg
      by_cases hgn : g = node
      · subst hgn
        exact List.mem_append_right _ (List.mem_singleton.mpr rfl)
      · simp only [hst1] at hg
        rw [getD_set_ne hgn] at hg
        exact List.mem_append_left _ (hgr g hg)
    have hcy1 : CyclesOk adj st1 := hcy
    have hlast1 : (path ++ [node]).getLast? = some node := List.getLast?_concat _
    obtain ⟨hlen2, hcy2, hgr2⟩ := dfsNeighbors_ok_of hadj ih (adj.getD node [])
      node (path ++ [node]) st1 hlen1 (fun q hq => hq) hcy1 hgr1 hchain hlast1
    refine ⟨by simp only [List.length_set]; exact hlen2, hcy2, ?_⟩
    intro g hg
    by_cases hgn : g = node
    · subst hgn
      rw [getD_set_self (by omega) 2 2] at hg
      omega
    · rw [getD_set_ne hgn] at hg
      have := hgr2 g hg
      simp only [hst1] at this
      rw [getD_set_ne hgn] at this
      exact this

theorem detect_cycles_dfs_ok {adj : List (List Nat)} {n : Nat}
    (hadj : ∀ a b, b ∈ adj.getD a [] → b < n) :
    ∀ c ∈ detect_cycles_dfs adj n, RealCycle adj c.processes := by
  have hfold : ∀ (l : List Nat) (st : DfsState), (∀ i ∈ l, i < n) →
      (st.color.length = n ∧ CyclesOk adj st ∧ (∀ g, st.color.getD g 2 ≠ 1)) →
      ((l.foldl (fun st i => if st.color.getD i 2 = 0 then dfsVisit adj (n + 1) i [] st
          else st) st).color.length = n ∧
        CyclesOk adj (l.foldl (fun st i => if st.color.getD i 2 = 0 then
          dfsVisit adj (n + 1) i [] st else st) st) ∧
        (∀ g, (l.foldl (fun st i => if st.color.getD i 2 = 0 then
          dfsVisit adj (n + 1) i [] st else st) st).color.getD g 2 ≠ 1)) := by
    intro l
    induction l with
    | nil => intro st _ hst; exact hst
    | cons i rest ih =>
      intro st hmem hst
      obtain ⟨hlen, hcy, hgr⟩ := hst
      rw [List.foldl_cons]
      refine ih _ (fun q hq => hmem q (List.mem_cons_of_mem _ hq)) ?_
      by_cases h0 : st.color.getD i 2 = 0
      · rw [if_pos h0]
        have := dfsVisit_ok hadj (n + 1) i [] st hlen
          (hmem i (List.mem_cons_self _ _)) hcy
          (fun g hg => absurd hg (hgr g)) (List.chain'_singleton _)
        exact ⟨this.1, this.2.1, fun g hg => hgr g (this.2.2 g hg)⟩
      · rw [if_neg h0]
        exact ⟨hlen, hcy, hgr⟩
  intro c hc
  have hinit : (List.replicate n 0 : List Nat).length = n ∧
      CyclesOk adj ⟨List.replicate n 0, []⟩ ∧
      (∀ g, (List.replicate n 0 : List Nat).getD g 2 ≠ 1) := by
    refine ⟨by simp, by intro c hc2; simp at hc2, ?_⟩
    intro g
    by_cases hg : g < n
    · rw [getD_replicate hg]
      omega
    · rw [List.getD_eq_default _ _ (by simpa using hg)]
      omega
  have := (hfold (List.range n) ⟨List.replicate n 0, []⟩
    (fun i hi => List.mem_range.mp hi) hinit).2.1
  exact this c hc

/-- Semantics of the adjacency sets: `b ∈ adj[a]` iff both ids are in
range, distinct, and `b` holds some resource `a` requests. -/
theorem mem_adjacencyOf {s : SystemState} {a b : Nat} :
    b ∈ (adjacencyOf s).getD a [] ↔
      (a < s.n ∧ b < s.n ∧ b ≠ a ∧
        ∃ j, j < s.m ∧ 0 < requestAt s a j ∧ 0 < allocAt s b j) := by
  by_cases ha : a < s.n
  · have hrow : (adjacencyOf s).getD a [] =
        (List.range s.n).filter (fun k =>
          k != a && (List.range s.m).any (fun j =>
            decide (0 < requestAt s a j) && decide (0 < allocAt s k j))) := by
      unfold adjacencyOf
      rw [getD_map 0 [] (by simpa using ha)]
      congr 1
      rw [List.getD_eq_getElem _ _ (by simpa using ha), List.getElem_range]
    rw [hrow, List.mem_filter, List.mem_range]
    simp only [Bool.and_eq_true, bne_iff_ne, ne_eq, List.any_eq_true, List.mem_range,
      decide_eq_true_eq]
    constructor
    · intro ⟨hb, hba, j, hj, hr, hal⟩
      exact ⟨ha, hb, hba, j, hj, hr, hal⟩
    · intro ⟨_, hb, hba, j, hj, hr, hal⟩
      exact ⟨hb, hba, j, hj, hr, hal⟩
  · have : (adjacencyOf s).getD a [] = [] := by
      apply List.getD_eq_default
      simp only [adjacencyOf, List.length_map, List.length_range]
      omega
    rw [this]
    simp only [List.not_mem_nil, false_iff]
    intro ⟨hc, _⟩
    exact ha hc

/-- Every member of a genuine cycle has a successor inside the cycle. -/
theorem cycle_mem_succ {adj : List (List Nat)} {c : List Nat}
    (hc : RealCycle adj c) : ∀ p ∈ c, ∃ q ∈ c, q ∈ adj.getD p [] := by
  obtain ⟨hne, hchain, hclose⟩ := hc
  intro p hp
  obtain ⟨t, ht, hpt⟩ := List.mem_iff_getElem.mp hp
  by_cases hlast : t + 1 < c.length
  · refine ⟨c.getD (t + 1) 0, ?_, ?_⟩
    · rw [List.getD_eq_getElem _ _ hlast]
      exact List.getElem_mem hlast
    · have h2 := List.chain'_iff_get.mp hchain t (by omega)
      rw [List.getD_eq_getElem _ _ hlast, ← hpt]
      simpa [List.get_eq_getElem, edgeRel] using h2
  · have hteq : t = c.length - 1 := by omega
    refine ⟨c.getD 0 0, ?_, ?_⟩
    · have h0 : 0 < c.length := by omega
      rw [List.getD_eq_getElem _ _ h0]
      exact List.getElem_mem h0
    · have hgl : c.getLastD 0 = p := by
        rw [List.getLastD_eq_getLast?, List.getLast?_eq_getElem?]
        rw [List.getElem?_eq_getElem (by omega : c.length - 1 < c.length)]
        simp only [Option.getD_some]
        rw [← hpt]
        congr 1
        omega
      rw [← hgl]
      exact hclose

theorem vle_getD {r w : List Int} (h : vector_less_equal r w = true) :
    ∀ {j : Nat}, j < r.length → j < w.length → r.getD j 0 ≤ w.getD j 0 := by
  induction r generalizing w with
  | nil => intro j hj _; simp at hj
  | cons x xs ih =>
    cases w with
    | nil => intro j _ hj; simp at hj
    | cons y ys =>
      simp only [vector_less_equal, List.zip_cons_cons, List.all_cons,
        Bool.and_eq_true, decide_eq_true_eq] at h
      intro j hjr hjw
      cases j with
      | zero => exact h.1
      | succ k =>
        simp only [List.getD_cons_succ]
        exact ih h.2 (Nat.lt_of_succ_lt_succ hjr) (Nat.lt_of_succ_lt_succ hjw)

theorem single_instancesAt {s : SystemState} (h : s.is_single_instance = true)
    {j : Nat} (hj : j < s.m) : instancesAt s j = 1 := by
  unfold SystemState.is_single_instance at h
  rw [List.all_eq_true] at h
  have hjlen : j < s.resource_types.length := hj
  have hmem : s.resource_types.getD j ⟨0, "", 0⟩ ∈ s.resource_types := by
    rw [List.getD_eq_getElem _ _ hjlen]
    exact List.getElem_mem hjlen
  have := h _ hmem
  unfold instancesAt
  simpa using this

/-- In a valid single-instance state, if process `q` holds resource `j`
then nothing of `j` is available and no other process holds any of it. -/
theorem single_instance_column {s : SystemState} (hval : Valid s)
    (hsingle : s.is_single_instance = true) {q j : Nat} (hq : q < s.n) (hj : j < s.m)
    (hposq : 0 < allocAt s q j) :
    s.available.getD j 0 = 0 ∧ ∀ x, x ≠ q → allocAt s x j = 0 := by
  obtain ⟨hav, hal, hrq, halr, hrqr, hnala, hnrqa, hnav, hcons, hbound, hnal, hnrql⟩ :=
    valid_facts hval
  have hone : s.available.getD j 0 + colSum s.allocation j = 1 := by
    rw [hcons j hj, single_instancesAt hsingle hj]
  have hsum : colSum s.allocation j =
      ((List.range s.n).map (fun i => allocAt s i j)).sum := by
    have := range_map_getD s.allocation (fun row => row.getD j 0) []
    rw [hal] at this
    rw [colSum, ← this]
    rfl
  have havnn : 0 ≤ s.available.getD j 0 := getD_nonneg hnav
  have hqmem : q ∈ List.range s.n := List.mem_range.mpr hq
  have hperm : (List.range s.n).Perm (q :: (List.range s.n).erase q) :=
    List.perm_cons_erase hqmem
  have hsumsplit : ((List.range s.n).map (fun i => allocAt s i j)).sum =
      allocAt s q j + (((List.range s.n).erase q).map (fun i => allocAt s i j)).sum := by
    rw [(hperm.map (fun i => allocAt s i j)).sum_eq]
    simp
  have herasenn : 0 ≤ (((List.range s.n).erase q).map (fun i => allocAt s i j)).sum := by
    apply List.sum_nonneg
    intro x hx
    obtain ⟨i, _, rfl⟩ := List.mem_map.mp hx
    exact hnala i j
  have herasezero : (((List.range s.n).erase q).map (fun i => allocAt s i j)).sum = 0 := by
    omega
  refine ⟨by omega, ?_⟩
  intro x hx
  by_cases hxn : x < s.n
  · have hxe : x ∈ (List.range s.n).erase q :=
      (List.mem_erase_of_ne hx).mpr (List.mem_range.mpr hxn)
    have hle : allocAt s x j ≤ (((List.range s.n).erase q).map
        (fun i => allocAt s i j)).sum :=
      List.single_le_sum (fun y hy => by
        obtain ⟨i, _, rfl⟩ := List.mem_map.mp hy
        exact hnala i j) _ (List.mem_map.mpr ⟨x, hxe, rfl⟩)
    have := hnala x j
    omega
  · unfold allocAt
    have : s.allocation.getD x [] = [] := List.getD_eq_default _ _ (by omega)
    rw [this]
    rfl

/-- Members of a genuine wait-for-graph cycle never finish in the
matrix run of a valid single-instance state. -/
theorem cycle_not_finishable {s : SystemState} (hval : Valid s)
    (hsingle : s.is_single_instance = true) {c : List Nat}
    (hc : RealCycle (adjacencyOf s) c) :
    ∀ (o : List Nat) (pref : List Nat),
      (∀ x ∈ pref, x ∉ c) → (∀ x ∈ pref, x < s.n) → (∀ x ∈ o, x < s.n) →
      Feasible s.request s.allocation
        (applyAll s.allocation s.available pref) o →
      ∀ x ∈ o, x ∉ c := by
  obtain ⟨hav, hal, hrq, halr, hrqr, hnala, hnrqa, hnav, hcons, hbound, hnal, hnrql⟩ :=
    valid_facts hval
  intro o
  induction o with
  | nil => intro pref _ _ _ _ x hx; simp at hx
  | cons p rest ih =>
    intro pref hprefc hprefn hon hfeas
    have hpn : p < s.n := hon p (List.mem_cons_self _ _)
    have hpnotc : p ∉ c := by
      intro hpc
      obtain ⟨q, hqc, hedge⟩ := cycle_mem_succ hc p hpc
      rw [mem_adjacencyOf] at hedge
      obtain ⟨_, hqn, hqp, j, hj, hreq, halq⟩ := hedge
      obtain ⟨havzero, hothers⟩ :=
        single_instance_column hval hsingle hqn hj halq
      -- the work vector at this point has nothing of resource j
      have hwork : (applyAll s.allocation s.available pref).getD j 0 = 0 := by
        have hjav : j < s.available.length := by rw [hav]; exact hj
        have hgetD := @getD_applyAll s.allocation pref s.available j
          (fun x hx => by rw [hav]; exact halr x (hprefn x hx)) hjav
        rw [hgetD, havzero]
        have : (pref.map (fun x => (s.allocation.getD x []).getD j 0)).sum = 0 := by
          have hz : ∀ y ∈ pref.map (fun x => (s.allocation.getD x []).getD j 0),
              y = 0 := by
            intro y hy
            obtain ⟨x, hx, rfl⟩ := List.mem_map.mp hy
            have hxq : x ≠ q := by
              intro hc2
              exact hprefc x hx (hc2 ▸ hqc)
            exact hothers x hxq
          exact List.sum_eq_zero hz
        omega
      have hle := hfeas.1
      have hcomp := vle_getD hle (j := j) (by rw [hrqr p hpn]; omega)
        (by
          rw [applyAll_length (fun x hx => by rw [hav]; exact halr x (hprefn x hx))]
          omega)
      unfold requestAt at hreq
      rw [hwork] at hcomp
      omega
    refine fun x hx => ?_
    rcases List.mem_cons.mp hx with rfl | hx2
    · exact hpnotc
    · have hrec := ih (pref ++ [p]) ?_ ?_ ?_ ?_
      · exact hrec x hx2
      · intro y hy
        rcases List.mem_append.mp hy with hy | hy
        · exact hprefc y hy
        · rw [List.mem_singleton.mp hy]
          exact hpnotc
      · intro y hy
        rcases List.mem_append.mp hy with hy | hy
        · exact hprefn y hy
        · rw [List.mem_singleton.mp hy]
          exact hpn
      · exact fun y hy => hon y (List.mem_cons_of_mem _ hy)
      · rw [applyAll_append_single]
        exact hfeas.2

theorem mem_foldl_union {cycles : List CycleInfo} {p : Nat} :
    ∀ {acc : Finset Nat},
      p ∈ cycles.foldl (fun acc c => acc ∪ c.processes.toFinset) acc ↔
        (p ∈ acc ∨ ∃ c ∈ cycles, p ∈ c.processes) := by
  induction cycles with
  | nil => intro acc; simp
  | cons c rest ih =>
    intro acc
    rw [List.foldl_cons, ih]
    simp only [Finset.mem_union, List.mem_toFinset, List.mem_cons]
    constructor
    · rintro ((hp | hp) | ⟨d, hd, hpd⟩)
      · exact Or.inl hp
      · exact Or.inr ⟨c, Or.inl rfl, hp⟩
      · exact Or.inr ⟨d, Or.inr hd, hpd⟩
    · rintro (hp | ⟨d, (rfl | hd), hpd⟩)
      · exact Or.inl (Or.inl hp)
      · exact Or.inl (Or.inr hpd)
      · exact Or.inr ⟨d, hd, hpd⟩

theorem wfg_result_cases (s : SystemState) :
    ((detect_deadlock_wfg s).deadlocked = false ∧
     (detect_deadlock_wfg s).deadlocked_processes = ∅) ∨
    ((detect_deadlock_wfg s).deadlocked = true ∧
     detect_cycles_dfs (adjacencyOf s) s.n ≠ [] ∧
     (detect_deadlock_wfg s).deadlocked_processes =
       (detect_cycles_dfs (adjacencyOf s) s.n).foldl
         (fun acc c => acc ∪ c.processes.toFinset) ∅) := by
  unfold detect_deadlock_wfg
  by_cases h1 : (build_wait_for_graph_edges s).isEmpty
  · simp only [h1, if_true]
    exact Or.inl ⟨by simp, by simp⟩
  · simp only [h1, Bool.false_eq_true, if_false]
    by_cases h2 : (detect_cycles_dfs (adjacencyOf s) s.n).isEmpty
    · simp only [h2, if_true]
      exact Or.inl ⟨by simp, by simp⟩
    · simp only [h2, Bool.false_eq_true, if_false]
      refine Or.inr ⟨by simp, ?_, by simp⟩
      intro hc
      rw [hc] at h2
      exact h2 rfl

theorem adjacencyOf_bound (s : SystemState) :
    ∀ a b, b ∈ (adjacencyOf s).getD a [] → b < s.n :=
  fun _ b h => (mem_adjacencyOf.mp h).2.1

/-- C1, amended: on a valid single-instance state the detectors agree
in one direction — a deadlock reported by the wait-for-graph detector
is also reported by the matrix detector, and every process in a
wait-for-graph cycle is matrix-deadlocked.  (The converse inclusions
fail: see the counterexample, where a process requests a resource it
itself holds, which the matrix detector flags but the wait-for graph —
whose edges only point at *other* holders — cannot see.) -/
theorem claims_c1 (s : SystemState) (hval : Valid s)
    (hsingle : s.is_single_instance = true) :
    ((detect_deadlock_wfg s).deadlocked = true →
      (detect_deadlock_matrix s).deadlocked = true) ∧
    (detect_deadlock_wfg s).deadlocked_processes ⊆
      (detect_deadlock_matrix s).deadlocked_processes := by
  have hcyc := detect_cycles_dfs_ok (adjacencyOf_bound s)
  have hinv := finalLoopSt_inv s
  have hmemmatrix : ∀ p, (∃ c ∈ detect_cycles_dfs (adjacencyOf s) s.n,
      p ∈ c.processes) → p ∈ (detect_deadlock_matrix s).deadlocked_processes := by
    intro p ⟨c, hcmem, hpc⟩
    have hreal := hcyc c hcmem
    obtain ⟨q, hqc, hedge⟩ := cycle_mem_succ hreal p hpc
    have hpn : p < s.n := (mem_adjacencyOf.mp hedge).1
    have hnotin : p ∉ (finalLoopSt s).execution_order := by
      have hfeas : Feasible s.request s.allocation
          (applyAll s.allocation s.available []) (finalLoopSt s).execution_order :=
        hinv.feas
      exact fun hin => cycle_not_finishable hval hsingle hreal
        (finalLoopSt s).execution_order [] (by simp) (by simp)
        hinv.mem_lt hfeas p hin hpc
    have hfin : (finalLoopSt s).finish.getD p true = false := by
      cases hb : (finalLoopSt s).finish.getD p true with
      | false => rfl
      | true => exact absurd ((hinv.finish_iff p hpn).mp hb) hnotin
    exact Finset.mem_filter.mpr ⟨Finset.mem_range.mpr hpn, hfin⟩
  have hsub : (detect_deadlock_wfg s).deadlocked_processes ⊆
      (detect_deadlock_matrix s).deadlocked_processes := by
    intro p hp
    rcases wfg_result_cases s with ⟨_, hemp⟩ | ⟨_, _, hpids⟩
    · rw [hemp] at hp
      simp at hp
    · rw [hpids] at hp
      rw [mem_foldl_union] at hp
      rcases hp with hp | hp
      · simp at hp
      · exact hmemmatrix p hp
  refine ⟨?_, hsub⟩
  intro hdl
  rcases wfg_result_cases s with ⟨hfalse, _⟩ | ⟨_, hne, hpids⟩
  · rw [hfalse] at hdl
    exact Bool.noConfusion hdl
  · obtain ⟨c0, hc0⟩ := List.exists_mem_of_ne_nil _ hne
    have hreal := hcyc c0 hc0
    obtain ⟨p0, hp0⟩ := List.exists_mem_of_ne_nil _ hreal.1
    have hpmem := hmemmatrix p0 ⟨c0, hc0, hp0⟩
    simp only [detect_deadlock_matrix]
    exact decide_eq_true (Finset.card_pos.mpr ⟨p0, hpmem⟩)

/-- Witness for the amended C1 at Scenario A (a genuine three-process
single-instance cycle). -/
theorem claims_c1_witness :
    ((detect_deadlock_wfg scenA).deadlocked = true →
      (detect_deadlock_matrix scenA).deadlocked = true) ∧
    (detect_deadlock_wfg scenA).deadlocked_processes ⊆
      (detect_deadlock_matrix scenA).deadlocked_processes :=
  claims_c1 scenA rfl rfl

unseal detectLoop dfsVisit dfsNeighbors in
/-- Counterexample to C1 as stated: a valid single-instance state (one
process holding the single instance of the one resource while
requesting one more of it) on which the matrix detector reports a
deadlock but the wait-for-graph detector does not — so neither the
`deadlocked` flags nor the deadlocked sets agree. -/
theorem claims_c1_counterexample :
    Valid selfReq ∧ selfReq.is_single_instance = true ∧
    (detect_deadlock_matrix selfReq).deadlocked = true ∧
    (detect_deadlock_wfg selfReq).deadlocked = false ∧
    (detect_deadlock_matrix selfReq).deadlocked_processes ≠
      (detect_deadlock_wfg selfReq).deadlocked_processes := by
  refine ⟨rfl, rfl, by decide, by decide, by decide⟩

unseal detectLoop dfsVisit dfsNeighbors in
/-- C7 (code bug): on the two-process single-instance cycle the
wait-for-graph detector finds the cycle `P0 → P1 → P0`, but the edges
recorded in the `CycleInfo` carry the unresolved placeholder resource
`-1` — even though the first (lowest-id) resource justifying the edge
`P0 → P1` is `R1` and for `P1 → P0` it is `R0`, and even though the
source comment says "take first match".  The first conjunct evaluates
the code at the failing input; the remaining conjuncts compute the
first matching resources the claim (and the source's own comment)
prescribe. -/
theorem claims_c7 :
    (detect_deadlock_wfg cyc2).cycles =
      [⟨[0, 1], [⟨0, 1, -1⟩, ⟨1, 0, -1⟩]⟩] ∧
    ((List.range cyc2.m).find? (fun j => decide (0 < requestAt cyc2 0 j) &&
      decide (0 < allocAt cyc2 1 j)) = some 1) ∧
    ((List.range cyc2.m).find? (fun j => decide (0 < requestAt cyc2 1 j) &&
      decide (0 < allocAt cyc2 0 j)) = some 0) ∧
    (-1 : Int) ≠ (1 : Int) ∧ (-1 : Int) ≠ (0 : Int) := by
  refine ⟨by decide, by decide, by decide, by decide, by decide⟩

end Deadlock

